import Mathlib

/-!
Tmux session registry: parser and TTL store.

A shallow embedding of `internal/models`, `internal/server/store.go`,
`internal/server/handlers.go`, `internal/agent/tmux.go`,
`internal/auth/middleware.go` and the ttl handling of
`cmd/tmux-server/main.go`.

Modelling conventions.

* A Go `string` is a sequence of characters: `String` in records, `List Char`
  inside the text-processing functions.
* A Go slice is a `List`; the nil slice and the empty slice are both `[]`,
  except in `Slice`, which keeps them apart for the result of `GetAll`.
* `time.Time` is an integer count of nanoseconds on an unbounded time line,
  `Time.Add`, `Time.After` and `Time.Before` are integer addition and strict
  comparison (their documented meaning).
* `time.Duration` is an `int64` count of nanoseconds.  The unary minus the
  store applies to its ttl is the source's own machine arithmetic, so it wraps
  (`wrapInt64`).
* `time.Now()` is an explicit argument `now` of every operation that reads
  the clock.
* A tmux invocation is a function of its arguments for the length of one
  collection cycle; log output is not modelled.
* The Go map of the store is an association list.  Go leaves the iteration
  order of a map unspecified: the list order is one admissible order, and the
  results below that involve several machines are stated up to permutation.
-/

namespace Dot

/-! ## internal/models/session.go -/

/-- Instant in nanoseconds since the Unix epoch. -/
abbrev Time := Int

/-- Signed nanosecond count (`time.Duration`, an `int64`). -/
abbrev Duration := Int

structure TmuxPane where
  Index : Int
  CurrentCommand : String
  Active : Bool
  Title : String
  deriving DecidableEq, Repr

structure TmuxWindow where
  Index : Int
  Name : String
  Active : Bool
  Panes : List TmuxPane
  deriving DecidableEq, Repr

structure TmuxSession where
  Name : String
  Windows : Int
  WindowDetails : List TmuxWindow
  Attached : Bool
  LastActivity : Time
  deriving DecidableEq, Repr

structure Machine where
  Name : String
  SSHHost : String
  SSHUser : String
  Sessions : List TmuxSession
  LastSeen : Time
  deriving DecidableEq, Repr

structure PushRequest where
  MachineName : String
  SSHHost : String
  SSHUser : String
  Sessions : List TmuxSession
  deriving DecidableEq, Repr

/-! ## Time and duration arithmetic -/

/-- Smallest `int64`, the minimum `time.Duration`. -/
def minDuration : Int := -9223372036854775808

/-- Largest `int64`, the maximum `time.Duration`. -/
def maxDuration : Int := 9223372036854775807

/-- Two's-complement reduction of an integer to the `int64` range. -/
def wrapInt64 (x : Int) : Int :=
  (x + 9223372036854775808) % 18446744073709551616 - 9223372036854775808

/-- Go's unary minus on a `time.Duration`. -/
def Duration.neg (d : Duration) : Duration := wrapInt64 (-d)

/-- Model of `t.Add(d)`. -/
def Time.Add (t : Time) (d : Duration) : Time := t + d

/-- Model of `t.After(u)`. -/
def Time.After (t u : Time) : Bool := decide (u < t)

/-- Model of `t.Before(u)`. -/
def Time.Before (t u : Time) : Bool := decide (t < u)

/-! ## internal/server/store.go -/

/-- The store: the machines map (an association list keyed by machine name)
and the ttl.  The mutex is not part of the sequential model. -/
structure Store where
  machines : List (String × Machine)
  ttl : Duration
  deriving DecidableEq, Repr

/-- Model of `NewStore(ttl)`. -/
def NewStore (ttl : Duration) : Store :=
  { machines := [], ttl := ttl }

/-- Map assignment `m[k] = v`: any binding of `k` is dropped and the new one
is added. -/
def mapAssign (m : List (String × Machine)) (k : String) (v : Machine) :
    List (String × Machine) :=
  m.filter (fun e => decide (e.1 ≠ k)) ++ [(k, v)]

/-- Map lookup `m[k]`. -/
def mapLookup (m : List (String × Machine)) (k : String) : Option Machine :=
  (m.find? (fun e => decide (e.1 = k))).map Prod.snd

/-- The record `Update` builds from a push request at clock reading `now`. -/
def machineOf (req : PushRequest) (now : Time) : Machine :=
  { Name := req.MachineName
    SSHHost := req.SSHHost
    SSHUser := req.SSHUser
    Sessions := req.Sessions
    LastSeen := now }

/-- Model of `Store.Update(req)` with `time.Now() = now`. -/
def Store.Update (s : Store) (req : PushRequest) (now : Time) : Store :=
  { s with machines := mapAssign s.machines req.MachineName (machineOf req now) }

/-- Model of `copy(dst, win.Panes)` into a fresh slice of the same length. -/
def copyPanes (panes : List TmuxPane) : List TmuxPane :=
  panes.map (fun p => p)

/-- Inner loop body of `GetAll`: copy one window, with a fresh pane slice when
the window has panes. -/
def copyWindow (win : TmuxWindow) : TmuxWindow :=
  if win.Panes.length > 0 then { win with Panes := copyPanes win.Panes } else win

/-- Middle loop body of `GetAll`: copy one session, with a fresh window slice
when the session has window details. -/
def copySession (sess : TmuxSession) : TmuxSession :=
  if sess.WindowDetails.length > 0 then
    { sess with WindowDetails := sess.WindowDetails.map copyWindow }
  else sess

/-- The deep copy `GetAll` makes of one stored machine. -/
def copyMachine (m : Machine) : Machine :=
  { m with Sessions := m.Sessions.map copySession }

/-- The cutoff instant `time.Now().Add(-s.ttl)`. -/
def Store.cutoff (s : Store) (now : Time) : Time :=
  Time.Add now (Duration.neg s.ttl)

/-- Model of `Store.GetAll()` with `time.Now() = now`. -/
def Store.GetAll (s : Store) (now : Time) : List Machine :=
  (s.machines.filter (fun e => Time.After e.2.LastSeen (s.cutoff now))).map
    (fun e => copyMachine e.2)

/-- Model of `Store.cleanup()` with `time.Now() = now`. -/
def Store.cleanup (s : Store) (now : Time) : Store :=
  { s with machines :=
      s.machines.filter (fun e => !(Time.Before e.2.LastSeen (s.cutoff now))) }

/-- State invariant of the map: every record is stored under its own name and
no key occurs twice. -/
def Store.WF (s : Store) : Prop :=
  (∀ e ∈ s.machines, e.2.Name = e.1) ∧ (s.machines.map Prod.fst).Nodup

/-! ## Library functions used by the parser (`strings`, `strconv`, `time`) -/

/-- Model of `unicode.IsSpace`: the Unicode White_Space code points. -/
def isSpace (c : Char) : Bool :=
  let n := c.toNat
  (9 ≤ n && n ≤ 13) || n == 32 || n == 0x85 || n == 0xA0 || n == 0x1680 ||
    (0x2000 ≤ n && n ≤ 0x200A) || n == 0x2028 || n == 0x2029 || n == 0x202F ||
    n == 0x205F || n == 0x3000

/-- Model of `strings.TrimSpace`: drop leading and trailing white space. -/
def TrimSpace (s : List Char) : List Char :=
  ((s.dropWhile isSpace).reverse.dropWhile isSpace).reverse

/-- Split at every separator: the first piece and the remaining pieces. -/
def splitAux (sep : Char) : List Char → List Char × List (List Char)
  | [] => ([], [])
  | c :: cs =>
    let r := splitAux sep cs
    if c = sep then ([], r.1 :: r.2) else (c :: r.1, r.2)

/-- Model of `strings.Split(s, sep)` for a one-character separator.  The empty
string yields one empty piece. -/
def Split (s : List Char) (sep : Char) : List (List Char) :=
  (splitAux sep s).1 :: (splitAux sep s).2

/-- The text before and after the first separator, if there is one
(`strings.Index` followed by the two slicings in `genSplit`). -/
def cutFirst (sep : Char) : List Char → Option (List Char × List Char)
  | [] => none
  | c :: cs =>
    if c = sep then some ([], cs)
    else (cutFirst sep cs).map (fun p => (c :: p.1, p.2))

/-- Model of `strings.SplitN(s, sep, n)` for `n ≥ 0` and a one-character
separator: at most `n` pieces, the last one being the unsplit remainder. -/
def SplitN (s : List Char) (sep : Char) : Nat → List (List Char)
  | 0 => []
  | 1 => [s]
  | n + 2 =>
    match cutFirst sep s with
    | none => [s]
    | some (pre, post) => pre :: SplitN post sep (n + 1)

/-- ASCII decimal digit test. -/
def isDigit (c : Char) : Bool := 48 ≤ c.toNat && c.toNat ≤ 57

/-- Digit loop of `strconv.ParseUint` in base 10: `none` on a character that
is not a digit.  The accumulator is unbounded; the range check is made by the
caller. -/
def parseDigits : List Char → Nat → Option Nat
  | [], acc => some acc
  | c :: cs, acc =>
    if isDigit c then parseDigits cs (acc * 10 + (c.toNat - 48)) else none

/-- Model of `strconv.ParseInt(s, 10, 64)`: an optional sign, then one or more
decimal digits, the value within the `int64` range; `none` stands for a
non-nil error. -/
def ParseInt (s : List Char) : Option Int :=
  match s with
  | [] => none
  | c :: rest =>
    let neg := decide (c = '-')
    let body := if c = '+' ∨ c = '-' then rest else s
    if body = [] then none
    else
      match parseDigits body 0 with
      | none => none
      | some un =>
        if !neg && decide (9223372036854775808 ≤ un) then none
        else if neg && decide (9223372036854775808 < un) then none
        else some (if neg then -(un : Int) else (un : Int))

/-- Model of `strconv.Atoi` on a platform with 64-bit `int`. -/
def Atoi (s : List Char) : Option Int := ParseInt s

/-- Model of `time.Unix(sec, nsec)`. -/
def timeUnix (sec nsec : Int) : Time := sec * 1000000000 + nsec

/-! ## internal/agent/tmux.go -/

/-- Loop body of `ParseSessions`: `none` is `continue`, `some` is the record
appended. -/
def parseSessionLine (line : List Char) : Option TmuxSession :=
  if line = [] then none
  else
    match SplitN line '\t' 4 with
    | [p0, p1, p2, p3] =>
      match Atoi p1 with
      | none => none
      | some windows =>
        let attached := decide (p2 = ['1'])
        match ParseInt p3 with
        | none => none
        | some epoch =>
          some { Name := String.mk p0
                 Windows := windows
                 WindowDetails := []
                 Attached := attached
                 LastActivity := timeUnix epoch 0 }
    | _ => none

/-- Model of `ParseSessions(output)`. -/
def ParseSessions (output : String) : Except String (List TmuxSession) :=
  let lines := Split (TrimSpace output.data) '\n'
  Except.ok (lines.filterMap parseSessionLine)

/-- Loop body of `ParseWindows`. -/
def parseWindowLine (line : List Char) : Option TmuxWindow :=
  if line = [] then none
  else
    match SplitN line '\t' 4 with
    | [p0, p1, p2, _] =>
      match Atoi p0 with
      | none => none
      | some index =>
        let active := decide (p2 = ['1'])
        some { Index := index, Name := String.mk p1, Active := active, Panes := [] }
    | _ => none

/-- Model of `ParseWindows(output)`. -/
def ParseWindows (output : String) : Except String (List TmuxWindow) :=
  let lines := Split (TrimSpace output.data) '\n'
  Except.ok (lines.filterMap parseWindowLine)

/-- Loop body of `ParsePanes`. -/
def parsePaneLine (line : List Char) : Option TmuxPane :=
  if line = [] then none
  else
    match SplitN line '\t' 4 with
    | [p0, p1, p2, p3] =>
      match Atoi p0 with
      | none => none
      | some index =>
        let active := decide (p2 = ['1'])
        some { Index := index
               CurrentCommand := String.mk p1
               Active := active
               Title := String.mk p3 }
    | _ => none

/-- Model of `ParsePanes(output)`. -/
def ParsePanes (output : String) : Except String (List TmuxPane) :=
  let lines := Split (TrimSpace output.data) '\n'
  Except.ok (lines.filterMap parsePaneLine)

/-- Number of tab-separated fields of a line. -/
def fieldCount (line : List Char) : Nat := (Split line '\t').length


/-- One mutating call on the store, with the clock reading it sees. -/
inductive StoreOp where
  | update (req : PushRequest) (now : Time)
  | cleanup (now : Time)
  deriving DecidableEq, Repr

/-- Effect of one mutating call. -/
def Store.apply (s : Store) : StoreOp → Store
  | StoreOp.update req now => s.Update req now
  | StoreOp.cleanup now => s.cleanup now

/-- Effect of a sequence of mutating calls, in order. -/
def Store.run (s : Store) (ops : List StoreOp) : Store :=
  ops.foldl Store.apply s

/-- Whether a call is an `Update` for the given machine name. -/
def StoreOp.updates (name : String) : StoreOp → Bool
  | StoreOp.update req _ => decide (req.MachineName = name)
  | StoreOp.cleanup _ => false

/-- Whether a call is a `cleanup` whose clock reading is later than `t`. -/
def StoreOp.sweepsAfter (t : Time) : StoreOp → Bool
  | StoreOp.update _ _ => false
  | StoreOp.cleanup now => decide (t < now)

/-! ## internal/server/handlers.go -/

/-- What a handler wrote: the status code and, for `writeError`, the value of
the `"error"` member of the JSON body. -/
structure Response where
  status : Nat
  error : Option String
  deriving DecidableEq, Repr

/-- Outcome of one `PostSessions` request: the store afterwards, the number of
`Store.Update` calls made, and the response. -/
structure PostResult where
  store : Store
  updateCalls : Nat
  response : Response
  deriving DecidableEq, Repr

/-- Model of `Handler.PostSessions`.  `decoded` is the result of
`json.NewDecoder(r.Body).Decode(&req)`: the request, or the text of the
decoding error. -/
def PostSessions (s : Store) (decoded : Except String PushRequest) (now : Time) :
    PostResult :=
  match decoded with
  | Except.error err =>
    { store := s, updateCalls := 0
      response := { status := 400, error := some ("invalid request body: " ++ err) } }
  | Except.ok req =>
    if req.MachineName = "" then
      { store := s, updateCalls := 0
        response := { status := 400, error := some "machine_name is required" } }
    else if req.SSHHost = "" then
      { store := s, updateCalls := 0
        response := { status := 400, error := some "ssh_host is required" } }
    else if req.SSHUser = "" then
      { store := s, updateCalls := 0
        response := { status := 400, error := some "ssh_user is required" } }
    else
      { store := s.Update req now, updateCalls := 1
        response := { status := 204, error := none } }

/-! ## Vocabulary of the parser properties -/

/-- Lines joined by newline characters. -/
def joinLines : List (List Char) → List Char
  | [] => []
  | l :: ls =>
    match ls with
    | [] => l
    | _ :: _ => l ++ '\n' :: joinLines ls

/-- Positional value of a string of decimal digits. -/
def digitsValue (ds : List Char) : Nat :=
  Nat.ofDigits 10 (ds.reverse.map (fun c => c.toNat - 48))

/-- `IsDecimal s v`: the text `s` is a decimal integer denoting `v`, that is an
optional sign followed by one or more decimal digits. -/
inductive IsDecimal : List Char → Int → Prop where
  | unsigned (ds : List Char) (hne : ds ≠ []) (hd : ∀ c ∈ ds, isDigit c = true) :
      IsDecimal ds (digitsValue ds)
  | plus (ds : List Char) (hne : ds ≠ []) (hd : ∀ c ∈ ds, isDigit c = true) :
      IsDecimal ('+' :: ds) (digitsValue ds)
  | minus (ds : List Char) (hne : ds ≠ []) (hd : ∀ c ∈ ds, isDigit c = true) :
      IsDecimal ('-' :: ds) (-(digitsValue ds : Int))

/-- One line of `tmux list-sessions` output given by its four columns, together
with the integers its second and fourth column denote. -/
structure SessionLine where
  name : List Char
  count : List Char
  flag : List Char
  epoch : List Char
  windows : Int
  seconds : Int

/-- The text of a session line: the four columns separated by tabs. -/
def SessionLine.text (l : SessionLine) : List Char :=
  l.name ++ '\t' :: (l.count ++ '\t' :: (l.flag ++ '\t' :: l.epoch))

/-- Well-formed session line: name and flag contain no tab or newline, count
and epoch are decimal integers in the `int64` range. -/
def SessionLine.WellFormed (l : SessionLine) : Prop :=
  '\t' ∉ l.name ∧ '\n' ∉ l.name ∧ '\t' ∉ l.flag ∧ '\n' ∉ l.flag ∧
    IsDecimal l.count l.windows ∧ IsDecimal l.epoch l.seconds ∧
    minDuration ≤ l.windows ∧ l.windows ≤ maxDuration ∧
    minDuration ≤ l.seconds ∧ l.seconds ≤ maxDuration

/-- The session record a well-formed line stands for. -/
def SessionLine.session (l : SessionLine) : TmuxSession :=
  { Name := String.mk l.name
    Windows := l.windows
    WindowDetails := []
    Attached := decide (l.flag = ['1'])
    LastActivity := timeUnix l.seconds 0 }

/-! ## internal/agent/tmux.go: the session collector -/

/-- Result of `cmd.Output()` for one tmux invocation: the output text, an
`*exec.ExitError` with its exit code and message, or any other error. -/
inductive CmdResult where
  | output (text : String)
  | exitError (code : Int) (msg : String)
  | otherError (msg : String)
  deriving DecidableEq, Repr

/-- The tmux server as the collector sees it during one cycle: the result of
`list-sessions`, of `list-windows -t name` for each session name, and of
`list-panes -t target` for each target. -/
structure Tmux where
  sessions : CmdResult
  windows : String → CmdResult
  panes : String → CmdResult

/-- The text of the error of a failed invocation, `none` when it succeeded. -/
def CmdResult.err : CmdResult → Option String
  | CmdResult.output _ => none
  | CmdResult.exitError _ msg => some msg
  | CmdResult.otherError msg => some msg

/-- Model of `listPanes(sessionName, windowIndex)`. -/
def listPanes (t : Tmux) (sessionName : String) (windowIndex : Int) :
    Except String (List TmuxPane) :=
  let target := sessionName ++ ":" ++ toString windowIndex
  match t.panes target with
  | CmdResult.output text => ParsePanes text
  | CmdResult.exitError _ msg => Except.error ("tmux list-panes -t " ++ target ++ ": " ++ msg)
  | CmdResult.otherError msg => Except.error ("tmux list-panes -t " ++ target ++ ": " ++ msg)

/-- Loop body of `listWindows`: attach the panes of one window, or leave the
window as parsed when listing its panes fails. -/
def enrichWindow (t : Tmux) (sessionName : String) (w : TmuxWindow) : TmuxWindow :=
  match listPanes t sessionName w.Index with
  | Except.error _ => w
  | Except.ok panes => { w with Panes := panes }

/-- Model of `listWindows(sessionName)`. -/
def listWindows (t : Tmux) (sessionName : String) : Except String (List TmuxWindow) :=
  match t.windows sessionName with
  | CmdResult.output text =>
    match ParseWindows text with
    | Except.error e => Except.error e
    | Except.ok windows => Except.ok (windows.map (enrichWindow t sessionName))
  | CmdResult.exitError _ msg =>
    Except.error ("tmux list-windows -t " ++ sessionName ++ ": " ++ msg)
  | CmdResult.otherError msg =>
    Except.error ("tmux list-windows -t " ++ sessionName ++ ": " ++ msg)

/-- Loop body of `ListSessions`: attach the windows of one session, or leave
the session as parsed when listing its windows fails. -/
def enrichSession (t : Tmux) (s : TmuxSession) : TmuxSession :=
  match listWindows t s.Name with
  | Except.error _ => s
  | Except.ok windows => { s with WindowDetails := windows }

/-- Model of `ListSessions()`. -/
def ListSessions (t : Tmux) : Except String (List TmuxSession) :=
  match t.sessions with
  | CmdResult.output text =>
    match ParseSessions text with
    | Except.error e => Except.error e
    | Except.ok sessions => Except.ok (sessions.map (enrichSession t))
  | CmdResult.exitError code msg =>
    if code = 1 then Except.ok [] else Except.error ("tmux list-sessions: " ++ msg)
  | CmdResult.otherError msg => Except.error ("tmux list-sessions: " ++ msg)

/-! ## internal/auth/middleware.go -/

/-- The claims the middleware extracts from a verified token. -/
structure Claims where
  Sub : String
  Email : String
  Aud : List String
  deriving DecidableEq, Repr

/-- A verified ID token, as far as the middleware uses it: the result of
`idToken.Claims(&claims)`. -/
structure IDToken where
  claims : Except String Claims

/-- The authenticator: the verifier (`Verify(ctx, rawToken)`) and the accepted
client IDs. -/
structure OIDCAuth where
  verify : String → Except String IDToken
  acceptedClientIDs : List String

/-- Inner loop of `audienceAccepted`: whether `a1` equals one of the ids. -/
def matchesAny (a1 : String) : List String → Bool
  | [] => false
  | a2 :: rest => if a1 = a2 then true else matchesAny a1 rest

/-- Model of `OIDCAuth.audienceAccepted(aud)`. -/
def audienceAccepted (acceptedClientIDs : List String) : List String → Bool
  | [] => false
  | a1 :: rest =>
    if matchesAny a1 acceptedClientIDs then true
    else audienceAccepted acceptedClientIDs rest

/-- Model of `strings.EqualFold` with ASCII case folding.  It agrees with
simple Unicode folding whenever one argument is made of ASCII letters other
than k and s, as the literal "Bearer" is. -/
def EqualFold : List Char → List Char → Bool
  | [], [] => true
  | c :: s, d :: t => (c.toLower == d.toLower) && EqualFold s t
  | _, _ => false

/-- What the middleware did with a request: answered itself, or called the
wrapped handler with the subject and email stored in the context. -/
inductive AuthOutcome where
  | rejected (response : Response)
  | next (sub : String) (email : String)
  deriving DecidableEq, Repr

/-- Model of `writeAuthError(w, http.StatusUnauthorized, message)`. -/
def writeAuthError (message : String) : AuthOutcome :=
  AuthOutcome.rejected { status := 401, error := some message }

/-- Model of the handler returned by `OIDCAuth.Middleware(next)`, applied to a
request whose `Authorization` header value is `authHeader` (empty when the
header is absent). -/
def Middleware (a : OIDCAuth) (authHeader : String) : AuthOutcome :=
  if authHeader = "" then writeAuthError "missing authorization header"
  else
    match SplitN authHeader.data ' ' 2 with
    | [p0, p1] =>
      if !EqualFold p0 "Bearer".data then
        writeAuthError "invalid authorization header format"
      else
        match a.verify (String.mk p1) with
        | Except.error e => writeAuthError ("invalid token: " ++ e)
        | Except.ok idToken =>
          match idToken.claims with
          | Except.error e => writeAuthError ("failed to parse claims: " ++ e)
          | Except.ok claims =>
            if !audienceAccepted a.acceptedClientIDs claims.Aud then
              writeAuthError "token audience not accepted"
            else AuthOutcome.next claims.Sub claims.Email
    | _ => writeAuthError "invalid authorization header format"

/-! ## Vocabulary of the line-count property -/

/-- A line is blank when it consists of white space only. -/
def isBlank (line : List Char) : Bool := line.all isSpace

/-- The non-blank lines of a text, in order. -/
def nonBlankLines (text : List Char) : List (List Char) :=
  (Split text '\n').filter (fun l => !isBlank l)

/-- The records `recs` follow the lines of `text`: they correspond one to one,
in order, to a subsequence of the non-blank lines of `text`, each record being
what `parseLine` returns for its line, up to white space at the two ends of
the line (which the block-level trim may have removed). -/
def RecordsFollowLines {β : Type} (parseLine : List Char → Option β) (text : List Char)
    (recs : List β) : Prop :=
  ∃ sub, List.Sublist sub (nonBlankLines text) ∧
    List.Forall₂
      (fun raw r => ∃ l, TrimSpace l = TrimSpace raw ∧ parseLine l = some r) sub recs

/-! ## Slices with nil: the result of `GetAll` as the handler encodes it -/

/-- A Go slice value where the distinction between the nil slice and a
non-nil slice matters. -/
inductive Slice (α : Type) where
  | nil
  | ofList (elems : List α)
  deriving DecidableEq, Repr

/-- Model of `make([]T, 0, n)`: a non-nil slice of length 0. -/
def Slice.make {α : Type} : Slice α := Slice.ofList []

/-- Model of `append(s, x)`. -/
def Slice.append {α : Type} : Slice α → α → Slice α
  | Slice.nil, x => Slice.ofList [x]
  | Slice.ofList l, x => Slice.ofList (l ++ [x])

/-- The elements of a slice. -/
def Slice.toList {α : Type} : Slice α → List α
  | Slice.nil => []
  | Slice.ofList l => l

/-- The loop of `GetAll` over the map entries, appending the copies of the
live machines to `result`. -/
def getAllLoop (cutoff : Time) : List (String × Machine) → Slice Machine → Slice Machine
  | [], result => result
  | e :: rest, result =>
    if Time.After e.2.LastSeen cutoff then
      getAllLoop cutoff rest (result.append (copyMachine e.2))
    else getAllLoop cutoff rest result

/-- Model of `Store.GetAll()` with `time.Now() = now`, keeping track of whether
the returned slice is nil. -/
def Store.GetAllSlice (s : Store) (now : Time) : Slice Machine :=
  getAllLoop (s.cutoff now) s.machines Slice.make

/-- How `encoding/json` renders a slice: `null` for the nil slice, an array of
the elements otherwise. -/
inductive JSONShape where
  | null
  | array (length : Nat)
  deriving DecidableEq, Repr

/-- Model of the JSON encoding of a slice-typed member. -/
def jsonShape {α : Type} : Slice α → JSONShape
  | Slice.nil => JSONShape.null
  | Slice.ofList l => JSONShape.array l.length

/-- What `Handler.GetSessions` writes: the status code and the value of
`SessionsResponse.Machines`. -/
structure SessionsReply where
  status : Nat
  machines : Slice Machine
  deriving DecidableEq, Repr

/-- Model of `Handler.GetSessions` with `time.Now() = now`. -/
def GetSessions (s : Store) (now : Time) : SessionsReply :=
  { status := 200, machines := s.GetAllSlice now }

/-! ## Vocabulary of the pane-line property -/

/-- One line of `tmux list-panes` output given by its four columns, together
with the integer its first column denotes. -/
structure PaneLine where
  index : List Char
  command : List Char
  flag : List Char
  title : List Char
  value : Int

/-- The text of a pane line: the four columns separated by tabs. -/
def PaneLine.text (l : PaneLine) : List Char :=
  l.index ++ '\t' :: (l.command ++ '\t' :: (l.flag ++ '\t' :: l.title))

/-- Pane line of the stated form: the index is a decimal integer; command, flag
and title contain no tab or newline. -/
def PaneLine.WellFormed (l : PaneLine) : Prop :=
  IsDecimal l.index l.value ∧
    '\t' ∉ l.command ∧ '\n' ∉ l.command ∧ '\t' ∉ l.flag ∧ '\n' ∉ l.flag ∧
    '\t' ∉ l.title ∧ '\n' ∉ l.title

/-- The pane record a pane line stands for. -/
def PaneLine.pane (l : PaneLine) : TmuxPane :=
  { Index := l.value
    CurrentCommand := String.mk l.command
    Active := decide (l.flag = ['1'])
    Title := String.mk l.title }

/-! ## cmd/tmux-server/main.go: the session ttl and the sweep interval -/

/-- The interval `ttl/2` that `main` passes to `StartCleanup`; Go's integer
division truncates toward zero. -/
def cleanupInterval (ttl : Duration) : Duration := Int.tdiv ttl 2

/-- Whether `time.NewTicker(d)` panics: it does for a non-positive `d`. -/
def newTickerPanics (d : Duration) : Bool := decide (d ≤ 0)

/-- How the server start ends as far as the ttl decides it. -/
inductive Startup where
  | exited (code : Nat)
  | sweeping (ttl : Duration) (interval : Duration)
  | crashed
  deriving DecidableEq, Repr

/-- Model of the ttl handling of `main` followed by the first statements of the
goroutine of `StartCleanup`.  `parseDuration` stands for `time.ParseDuration`,
`sessionTTL` for the value of the environment variable `SESSION_TTL`. -/
def serverStartup (parseDuration : String → Except String Duration) (sessionTTL : String) :
    Startup :=
  let ttlStr := if sessionTTL = "" then "60s" else sessionTTL
  match parseDuration ttlStr with
  | Except.error _ => Startup.exited 1
  | Except.ok ttl =>
    if newTickerPanics (cleanupInterval ttl) then Startup.crashed
    else Startup.sweeping ttl (cleanupInterval ttl)

/-! # Theorems -/

/-! ## Arithmetic of the cutoff -/

theorem wrapInt64_neg_of_range (d : Int) (hlo : minDuration < d) (hhi : d ≤ maxDuration) :
    wrapInt64 (-d) = -d := by
  unfold minDuration at hlo
  unfold maxDuration at hhi
  unfold wrapInt64
  omega

theorem cutoff_eq_sub (s : Store) (now : Time) (hlo : minDuration < s.ttl)
    (hhi : s.ttl ≤ maxDuration) : s.cutoff now = now - s.ttl := by
  unfold Store.cutoff Time.Add Duration.neg
  rw [wrapInt64_neg_of_range s.ttl hlo hhi]
  exact (Int.sub_eq_add_neg).symm

/-! ## The deep copy is value-preserving -/

theorem copyPanes_eq (panes : List TmuxPane) : copyPanes panes = panes := by
  simp [copyPanes]

theorem copyWindow_eq (win : TmuxWindow) : copyWindow win = win := by
  unfold copyWindow
  split
  · rw [copyPanes_eq]
  · rfl

theorem map_copyWindow_eq (ws : List TmuxWindow) : ws.map copyWindow = ws := by
  induction ws with
  | nil => rfl
  | cons w ws ih => simp [copyWindow_eq, ih]

theorem copySession_eq (sess : TmuxSession) : copySession sess = sess := by
  unfold copySession
  split
  · rw [map_copyWindow_eq]
  · rfl

theorem map_copySession_eq (ss : List TmuxSession) : ss.map copySession = ss := by
  induction ss with
  | nil => rfl
  | cons x xs ih => simp [copySession_eq, ih]

theorem copyMachine_eq (m : Machine) : copyMachine m = m := by
  unfold copyMachine
  rw [map_copySession_eq]

/-! ## Characterisation of the store operations -/

theorem getAll_eq_filter (s : Store) (now : Time) :
    s.GetAll now =
      (s.machines.map Prod.snd).filter (fun m => decide (s.cutoff now < m.LastSeen)) := by
  unfold Store.GetAll Time.After
  have hcopy : (fun e : String × Machine => copyMachine e.2) = Prod.snd := by
    funext e
    exact copyMachine_eq e.2
  rw [hcopy, List.filter_map]
  rfl

theorem mem_getAll (s : Store) (now : Time) (m : Machine) :
    m ∈ s.GetAll now ↔ (∃ k, (k, m) ∈ s.machines) ∧ s.cutoff now < m.LastSeen := by
  rw [getAll_eq_filter]
  simp [List.mem_filter]

theorem mem_update (s : Store) (req : PushRequest) (now : Time) (e : String × Machine) :
    e ∈ (s.Update req now).machines ↔
      (e ∈ s.machines ∧ e.1 ≠ req.MachineName) ∨ e = (req.MachineName, machineOf req now) := by
  simp [Store.Update, mapAssign, List.mem_filter]

theorem mem_cleanup (s : Store) (now : Time) (e : String × Machine) :
    e ∈ (s.cleanup now).machines ↔ e ∈ s.machines ∧ ¬ e.2.LastSeen < s.cutoff now := by
  simp [Store.cleanup, Time.Before, List.mem_filter]

theorem update_ttl (s : Store) (req : PushRequest) (now : Time) :
    (s.Update req now).ttl = s.ttl := rfl

theorem cleanup_ttl (s : Store) (now : Time) : (s.cleanup now).ttl = s.ttl := rfl

theorem cleanup_cutoff (s : Store) (t now : Time) :
    (s.cleanup t).cutoff now = s.cutoff now := rfl

theorem update_cutoff (s : Store) (req : PushRequest) (t now : Time) :
    (s.Update req t).cutoff now = s.cutoff now := rfl

theorem run_ttl (ops : List StoreOp) (s : Store) : (s.run ops).ttl = s.ttl := by
  induction ops generalizing s with
  | nil => rfl
  | cons op ops ih =>
    have h : (s.apply op).ttl = s.ttl := by cases op <;> rfl
    simpa [Store.run, h] using ih (s.apply op)

theorem run_cutoff (ops : List StoreOp) (s : Store) (now : Time) :
    (s.run ops).cutoff now = s.cutoff now := by
  unfold Store.cutoff
  rw [run_ttl]

/-! ## The state invariant -/

theorem newStore_wf (ttl : Duration) : (NewStore ttl).WF := by
  simp [Store.WF, NewStore]

theorem update_wf (s : Store) (req : PushRequest) (now : Time) (h : s.WF) :
    (s.Update req now).WF := by
  obtain ⟨hname, hnd⟩ := h
  refine ⟨?_, ?_⟩
  · intro e he
    rcases (mem_update s req now e).1 he with ⟨hmem, _⟩ | rfl
    · exact hname e hmem
    · rfl
  · simp only [Store.Update, mapAssign, List.map_append, List.map_cons, List.map_nil]
    rw [List.nodup_append]
    refine ⟨?_, List.nodup_singleton _, ?_⟩
    · exact (List.filter_sublist _).map Prod.fst |>.nodup hnd
    · intro k hk hk2
      simp only [List.mem_singleton] at hk2
      simp only [List.mem_map, List.mem_filter] at hk
      obtain ⟨e, ⟨_, he⟩, rfl⟩ := hk
      simp at he
      exact he hk2

theorem cleanup_wf (s : Store) (now : Time) (h : s.WF) : (s.cleanup now).WF := by
  obtain ⟨hname, hnd⟩ := h
  refine ⟨?_, ?_⟩
  · intro e he
    exact hname e ((mem_cleanup s now e).1 he).1
  · exact ((List.filter_sublist _).map Prod.fst).nodup hnd

theorem apply_wf (s : Store) (op : StoreOp) (h : s.WF) : (s.apply op).WF := by
  cases op with
  | update req now => exact update_wf s req now h
  | cleanup now => exact cleanup_wf s now h

theorem run_wf (ops : List StoreOp) (s : Store) (h : s.WF) : (s.run ops).WF := by
  induction ops generalizing s with
  | nil => exact h
  | cons op ops ih => exact ih (s.apply op) (apply_wf s op h)

/-! ## Store.GetAll -/

/-- C1 (as amended): for every store whose ttl is a duration above the minimum
one (so that `-ttl` does not wrap) and every read time `now`, `GetAll` returns
exactly the stored machines whose age `now - LastSeen` is strictly less than
ttl, each once and none other. -/
theorem getAll_returns_strictly_fresh (s : Store) (now : Time)
    (hlo : minDuration < s.ttl) (hhi : s.ttl ≤ maxDuration) :
    List.Perm (s.GetAll now)
      ((s.machines.map Prod.snd).filter (fun m => decide (now - m.LastSeen < s.ttl))) := by
  rw [getAll_eq_filter, cutoff_eq_sub s now hlo hhi]
  have hfun : (fun m : Machine => decide (now - s.ttl < m.LastSeen)) =
      (fun m : Machine => decide (now - m.LastSeen < s.ttl)) := by
    funext m
    apply decide_eq_decide.2
    constructor <;> intro h <;> linarith
  rw [hfun]

/-- Instance of C1 (as amended) at a store holding two machines, one of age 3
and one of age 5, with ttl 5. -/
theorem getAll_returns_strictly_fresh_witness :
    minDuration < (5 : Int) ∧ (5 : Int) ≤ maxDuration ∧
    List.Perm
      (Store.GetAll
        { machines := [("a", ⟨"a", "h", "u", [], 2⟩), ("b", ⟨"b", "h", "u", [], 0⟩)], ttl := 5 } 5)
      [⟨"a", "h", "u", [], 2⟩] :=
  ⟨by decide, by decide,
    getAll_returns_strictly_fresh
      { machines := [("a", ⟨"a", "h", "u", [], 2⟩), ("b", ⟨"b", "h", "u", [], 0⟩)], ttl := 5 } 5
      (by decide) (by decide)⟩

/-- C1 (as stated) fails: a machine pushed at time 0 into a store with ttl 5
is stored and has age exactly ttl at time 5, yet `GetAll` at time 5 returns
nothing. -/
theorem getAll_excludes_age_equal_ttl :
    (5 : Int) - (machineOf ⟨"m", "h", "u", []⟩ 0).LastSeen ≤
        ((NewStore 5).Update ⟨"m", "h", "u", []⟩ 0).ttl ∧
      machineOf ⟨"m", "h", "u", []⟩ 0 ∈
        (((NewStore 5).Update ⟨"m", "h", "u", []⟩ 0).machines.map Prod.snd) ∧
      ((NewStore 5).Update ⟨"m", "h", "u", []⟩ 0).GetAll 5 = [] := by
  decide

/-- C5: in a store holding no machine, an `Update(req)` at time `t` followed by
`GetAll` at a time `t2` with `t2 - t < ttl` returns exactly one machine; its
name, host and user are those of the request and its sessions (with every
nested window and pane) are the request's sessions. -/
theorem update_then_getAll_roundtrip (s : Store) (req : PushRequest) (t t2 : Time)
    (hempty : s.machines = []) (hpos : 0 < s.ttl) (hhi : s.ttl ≤ maxDuration)
    (hfresh : t2 - t < s.ttl) :
    ∃ m, (s.Update req t).GetAll t2 = [m] ∧ m.Name = req.MachineName ∧
      m.SSHHost = req.SSHHost ∧ m.SSHUser = req.SSHUser ∧ m.Sessions = req.Sessions := by
  refine ⟨machineOf req t, ?_, rfl, rfl, rfl, rfl⟩
  have hlo : minDuration < (s.Update req t).ttl := by
    show minDuration < s.ttl
    have : minDuration < 0 := by decide
    linarith
  rw [getAll_eq_filter, cutoff_eq_sub _ t2 hlo hhi]
  have hlive : t2 - s.ttl < t := by linarith
  simp [Store.Update, mapAssign, hempty, machineOf, hlive]

/-- Instance of C5: the request of the repository's store test, read back 30
seconds after the push with a ttl of 60 seconds. -/
theorem update_then_getAll_roundtrip_witness :
    ∃ m, ((NewStore 60000000000).Update
        ⟨"machine-a", "10.0.0.1", "user",
          [⟨"dev", 3, [⟨0, "w", true, [⟨0, "zsh", true, "t"⟩]⟩], true, 1700000000000000000⟩]⟩
        1000).GetAll 30000001000 = [m] ∧
      m.Name = "machine-a" ∧ m.SSHHost = "10.0.0.1" ∧ m.SSHUser = "user" ∧
      m.Sessions =
        [⟨"dev", 3, [⟨0, "w", true, [⟨0, "zsh", true, "t"⟩]⟩], true, 1700000000000000000⟩] :=
  update_then_getAll_roundtrip (NewStore 60000000000)
    ⟨"machine-a", "10.0.0.1", "user",
      [⟨"dev", 3, [⟨0, "w", true, [⟨0, "zsh", true, "t"⟩]⟩], true, 1700000000000000000⟩]⟩
    1000 30000001000 rfl (by decide) (by decide) (by decide)

/-! ## Store.Update -/

/-- C6: after `Update(r1)` then `Update(r2)` with the same machine name, the
store holds exactly one record under that name, and it is the record built
from `r2` alone: host, user and sessions are those of `r2`, so every session
it lists is a session of `r2`. -/
theorem update_replaces_record (s : Store) (r1 r2 : PushRequest) (t1 t2 : Time)
    (hname : r1.MachineName = r2.MachineName) :
    ∃ m, ((s.Update r1 t1).Update r2 t2).machines.filter
          (fun e => decide (e.1 = r2.MachineName)) = [(r2.MachineName, m)] ∧
      mapLookup ((s.Update r1 t1).Update r2 t2).machines r2.MachineName = some m ∧
      m.SSHHost = r2.SSHHost ∧ m.SSHUser = r2.SSHUser ∧ m.Sessions = r2.Sessions ∧
      (∀ sess ∈ m.Sessions, sess ∈ r2.Sessions) := by
  refine ⟨machineOf r2 t2, ?_, ?_, rfl, rfl, rfl, fun _ h => h⟩
  · simp only [Store.Update, mapAssign, hname, List.filter_append, List.filter_filter]
    have hnil : ∀ l : List (String × Machine),
        l.filter (fun e => decide (e.1 = r2.MachineName) && decide (e.1 ≠ r2.MachineName)) = [] := by
      intro l
      rw [List.filter_eq_nil_iff]
      intro e _
      by_cases h : e.1 = r2.MachineName <;> simp [h]
    simp [hnil]
  · simp only [Store.Update, mapAssign, mapLookup, hname]
    rw [List.find?_append]
    have hnone : ∀ l : List (String × Machine),
        (l.filter (fun e => decide (e.1 ≠ r2.MachineName))).find?
          (fun e => decide (e.1 = r2.MachineName)) = none := by
      intro l
      rw [List.find?_eq_none]
      intro e he
      have := (List.mem_filter.1 he).2
      simpa using this
    rw [hnone]
    simp

/-- Instance of C6: the two pushes of the repository's replace test. -/
theorem update_replaces_record_witness :
    ∃ m, (((NewStore 60).Update ⟨"m1", "h", "u", [⟨"old-session", 1, [], false, 0⟩]⟩ 1).Update
          ⟨"m1", "h2", "u2", [⟨"new-session-1", 2, [], false, 0⟩]⟩ 2).machines.filter
          (fun e => decide (e.1 = "m1")) = [("m1", m)] ∧
      mapLookup (((NewStore 60).Update ⟨"m1", "h", "u", [⟨"old-session", 1, [], false, 0⟩]⟩ 1).Update
          ⟨"m1", "h2", "u2", [⟨"new-session-1", 2, [], false, 0⟩]⟩ 2).machines "m1" = some m ∧
      m.SSHHost = "h2" ∧ m.SSHUser = "u2" ∧
      m.Sessions = [⟨"new-session-1", 2, [], false, 0⟩] ∧
      (∀ sess ∈ m.Sessions, sess ∈ [(⟨"new-session-1", 2, [], false, 0⟩ : TmuxSession)]) :=
  update_replaces_record (NewStore 60) ⟨"m1", "h", "u", [⟨"old-session", 1, [], false, 0⟩]⟩
    ⟨"m1", "h2", "u2", [⟨"new-session-1", 2, [], false, 0⟩]⟩ 1 2 rfl

/-! ## Handler.PostSessions -/

/-- C7: for a successfully decoded request, `PostSessions` calls `Store.Update`
exactly once and answers 204 when machine name, host and user are all
non-empty, and only then; otherwise it makes no call, leaves the store
unchanged and answers 400 with "<field> is required" for the first empty field
in the order machine_name, ssh_host, ssh_user. -/
theorem postSessions_validates (s : Store) (req : PushRequest) (now : Time) :
    ((PostSessions s (Except.ok req) now).updateCalls = 1 ↔
        (req.MachineName ≠ "" ∧ req.SSHHost ≠ "" ∧ req.SSHUser ≠ "")) ∧
      ((req.MachineName ≠ "" ∧ req.SSHHost ≠ "" ∧ req.SSHUser ≠ "") →
        PostSessions s (Except.ok req) now =
          { store := s.Update req now, updateCalls := 1,
            response := { status := 204, error := none } }) ∧
      (req.MachineName = "" →
        PostSessions s (Except.ok req) now =
          { store := s, updateCalls := 0,
            response := { status := 400, error := some "machine_name is required" } }) ∧
      (req.MachineName ≠ "" → req.SSHHost = "" →
        PostSessions s (Except.ok req) now =
          { store := s, updateCalls := 0,
            response := { status := 400, error := some "ssh_host is required" } }) ∧
      (req.MachineName ≠ "" → req.SSHHost ≠ "" → req.SSHUser = "" →
        PostSessions s (Except.ok req) now =
          { store := s, updateCalls := 0,
            response := { status := 400, error := some "ssh_user is required" } }) := by
  by_cases h1 : req.MachineName = ""
  · simp [PostSessions, h1]
  · by_cases h2 : req.SSHHost = ""
    · simp [PostSessions, h1, h2]
    · by_cases h3 : req.SSHUser = ""
      · simp [PostSessions, h1, h2, h3]
      · simp [PostSessions, h1, h2, h3]

/-- Instance of C7: a complete request is stored with one `Update` call and
answered 204; a request without ssh_host is answered 400 and changes
nothing. -/
theorem postSessions_validates_witness :
    PostSessions (NewStore 60) (Except.ok ⟨"laptop", "192.168.1.100", "dev", []⟩) 7 =
        { store := (NewStore 60).Update ⟨"laptop", "192.168.1.100", "dev", []⟩ 7,
          updateCalls := 1, response := { status := 204, error := none } } ∧
      PostSessions (NewStore 60) (Except.ok ⟨"laptop", "", "", []⟩) 7 =
        { store := NewStore 60, updateCalls := 0,
          response := { status := 400, error := some "ssh_host is required" } } :=
  ⟨(postSessions_validates (NewStore 60) ⟨"laptop", "192.168.1.100", "dev", []⟩ 7).2.1
      ⟨by decide, by decide, by decide⟩,
    (postSessions_validates (NewStore 60) ⟨"laptop", "", "", []⟩ 7).2.2.2.1
      (by decide) rfl⟩

/-! ## Store.cleanup -/

/-- C8 (as amended): for every store whose ttl is a duration above the minimum
one (so that `-ttl` does not wrap) and every sweep time `now`, `cleanup`
removes every key whose age `now - LastSeen` is greater than ttl and keeps
every other key, with its record unchanged (and in place); the ttl is
unchanged. -/
theorem cleanup_removes_exactly_stale (s : Store) (now : Time)
    (hlo : minDuration < s.ttl) (hhi : s.ttl ≤ maxDuration) :
    (s.cleanup now).ttl = s.ttl ∧
      (s.cleanup now).machines =
        s.machines.filter (fun e => !decide (s.ttl < now - e.2.LastSeen)) ∧
      (∀ k m, (k, m) ∈ (s.cleanup now).machines ↔
        ((k, m) ∈ s.machines ∧ ¬ s.ttl < now - m.LastSeen)) := by
  have hfun : (fun e : String × Machine => !(Time.Before e.2.LastSeen (s.cutoff now))) =
      (fun e : String × Machine => !decide (s.ttl < now - e.2.LastSeen)) := by
    funext e
    rw [cutoff_eq_sub s now hlo hhi]
    unfold Time.Before
    congr 1
    apply decide_eq_decide.2
    constructor <;> intro h <;> linarith
  refine ⟨rfl, ?_, ?_⟩
  · unfold Store.cleanup
    simp only [hfun]
  · intro k m
    rw [mem_cleanup, cutoff_eq_sub s now hlo hhi]
    constructor
    · rintro ⟨h1, h2⟩
      exact ⟨h1, by simp only at h2; linarith⟩
    · rintro ⟨h1, h2⟩
      exact ⟨h1, by simp only; linarith⟩

/-- Instance of C8 (as amended): ttl 5, sweep at time 10, records last seen at
4, 5 and 9. -/
theorem cleanup_removes_exactly_stale_witness :
    minDuration < (5 : Int) ∧ (5 : Int) ≤ maxDuration ∧
    (Store.cleanup
      { machines := [("a", ⟨"a", "h", "u", [], 4⟩), ("b", ⟨"b", "h", "u", [], 5⟩),
                     ("c", ⟨"c", "h", "u", [], 9⟩)], ttl := 5 } 10).machines =
      [("b", ⟨"b", "h", "u", [], 5⟩), ("c", ⟨"c", "h", "u", [], 9⟩)] :=
  ⟨by decide, by decide,
    (cleanup_removes_exactly_stale
      { machines := [("a", ⟨"a", "h", "u", [], 4⟩), ("b", ⟨"b", "h", "u", [], 5⟩),
                     ("c", ⟨"c", "h", "u", [], 9⟩)], ttl := 5 } 10 (by decide) (by decide)).2.1⟩

/-- C9: for every store, sweep time `t1` and read time `t2 ≥ t1`, `GetAll` at
`t2` returns the same machines whether or not `cleanup` ran at `t1` first. -/
theorem cleanup_invisible_to_getAll (s : Store) (t1 t2 : Time) (h : t1 ≤ t2) :
    List.Perm ((s.cleanup t1).GetAll t2) (s.GetAll t2) := by
  have heq : (s.cleanup t1).GetAll t2 = s.GetAll t2 := by
    rw [getAll_eq_filter, getAll_eq_filter, cleanup_cutoff]
    unfold Store.cleanup Time.Before
    simp only
    rw [List.filter_map, List.filter_map, List.filter_filter]
    congr 1
    apply List.filter_congr
    intro e _
    have hc : s.cutoff t1 ≤ s.cutoff t2 := by
      unfold Store.cutoff Time.Add
      linarith
    by_cases hl : s.cutoff t2 < e.2.LastSeen
    · have : ¬ e.2.LastSeen < s.cutoff t1 := by linarith
      simp [hl, this]
    · simp [hl]
  rw [heq]

/-- Instance of C9: ttl 5, sweep at time 10, read at time 12. -/
theorem cleanup_invisible_to_getAll_witness :
    List.Perm
      ((Store.cleanup
        { machines := [("a", ⟨"a", "h", "u", [], 4⟩), ("b", ⟨"b", "h", "u", [], 5⟩),
                       ("c", ⟨"c", "h", "u", [], 9⟩)], ttl := 5 } 10).GetAll 12)
      (Store.GetAll
        { machines := [("a", ⟨"a", "h", "u", [], 4⟩), ("b", ⟨"b", "h", "u", [], 5⟩),
                       ("c", ⟨"c", "h", "u", [], 9⟩)], ttl := 5 } 12) :=
  cleanup_invisible_to_getAll _ 10 12 (by decide)

/-! ## TTL expiry -/

theorem apply_keeps_name_inv (s : Store) (op : StoreOp) (name : String) (T : Time)
    (hop : op.updates name = false)
    (hinv : ∀ e ∈ s.machines, e.1 = name → e.2.LastSeen = T) :
    ∀ e ∈ (s.apply op).machines, e.1 = name → e.2.LastSeen = T := by
  intro e he hk
  cases op with
  | update req now =>
    rcases (mem_update s req now e).1 he with ⟨hmem, _⟩ | rfl
    · exact hinv e hmem hk
    · simp [StoreOp.updates] at hop
      exact absurd hk hop
  | cleanup now => exact hinv e ((mem_cleanup s now e).1 he).1 hk

theorem run_keeps_name_inv (ops : List StoreOp) (s : Store) (name : String) (T : Time)
    (hops : ∀ op ∈ ops, op.updates name = false)
    (hinv : ∀ e ∈ s.machines, e.1 = name → e.2.LastSeen = T) :
    ∀ e ∈ (s.run ops).machines, e.1 = name → e.2.LastSeen = T := by
  induction ops generalizing s with
  | nil => exact hinv
  | cons op ops ih =>
    exact ih (s.apply op) (fun o ho => hops o (List.mem_cons_of_mem _ ho))
      (apply_keeps_name_inv s op name T (hops op (List.mem_cons_self _ _)) hinv)

theorem apply_keeps_entry (s : Store) (op : StoreOp) (name : String) (m : Machine) (t : Time)
    (hop : op.updates name = false) (hsweep : op.sweepsAfter t = false)
    (hlive : s.cutoff t ≤ m.LastSeen) (hmem : (name, m) ∈ s.machines) :
    (name, m) ∈ (s.apply op).machines := by
  cases op with
  | update req now =>
    refine (mem_update s req now _).2 (Or.inl ⟨hmem, ?_⟩)
    simp [StoreOp.updates] at hop
    exact fun h => hop h.symm
  | cleanup now =>
    refine (mem_cleanup s now _).2 ⟨hmem, ?_⟩
    simp [StoreOp.sweepsAfter] at hsweep
    have hc : s.cutoff now ≤ s.cutoff t := by
      unfold Store.cutoff Time.Add
      linarith
    show ¬ m.LastSeen < s.cutoff now
    linarith

theorem run_keeps_entry (ops : List StoreOp) (s : Store) (name : String) (m : Machine)
    (t : Time) (hops : ∀ op ∈ ops, op.updates name = false)
    (hsweeps : ∀ op ∈ ops, op.sweepsAfter t = false)
    (hlive : s.cutoff t ≤ m.LastSeen) (hmem : (name, m) ∈ s.machines) :
    (name, m) ∈ (s.run ops).machines := by
  induction ops generalizing s with
  | nil => exact hmem
  | cons op ops ih =>
    have hcut : (s.apply op).cutoff t = s.cutoff t := by cases op <;> rfl
    exact ih (s.apply op) (fun o ho => hops o (List.mem_cons_of_mem _ ho))
      (fun o ho => hsweeps o (List.mem_cons_of_mem _ ho)) (by rw [hcut]; exact hlive)
      (apply_keeps_entry s op name m t (hops op (List.mem_cons_self _ _))
        (hsweeps op (List.mem_cons_self _ _)) hlive hmem)

/-- C10: let a machine be pushed at time `T` into a well-formed store and let
any calls follow that do not update that machine again.  For every `eps > 0`,
`GetAll` at `T + ttl + eps` returns no machine of that name; and if no sweep
ran later than the read time, `GetAll` at `T + ttl - eps` returns the record
pushed at `T`. -/
theorem ttl_expiry (s : Store) (req : PushRequest) (T eps : Int) (ops : List StoreOp)
    (hwf : s.WF) (hlo : minDuration < s.ttl) (hhi : s.ttl ≤ maxDuration) (heps : 0 < eps)
    (hops : ∀ op ∈ ops, op.updates req.MachineName = false) :
    (∀ m ∈ ((s.Update req T).run ops).GetAll (T + s.ttl + eps), m.Name ≠ req.MachineName) ∧
      ((∀ op ∈ ops, op.sweepsAfter (T + s.ttl - eps) = false) →
        machineOf req T ∈ ((s.Update req T).run ops).GetAll (T + s.ttl - eps)) := by
  have hcut : ∀ now, ((s.Update req T).run ops).cutoff now = now - s.ttl := by
    intro now
    rw [run_cutoff, update_cutoff, cutoff_eq_sub s now hlo hhi]
  have hupd : (req.MachineName, machineOf req T) ∈ (s.Update req T).machines :=
    (mem_update s req T _).2 (Or.inr rfl)
  constructor
  · intro m hm hname
    rw [mem_getAll, hcut] at hm
    obtain ⟨⟨k, hk⟩, hlive⟩ := hm
    have hwf2 : ((s.Update req T).run ops).WF := run_wf ops _ (update_wf s req T hwf)
    have hkey : k = req.MachineName := by
      have := hwf2.1 (k, m) hk
      simp only at this
      rw [← this, hname]
    have hinv0 : ∀ e ∈ (s.Update req T).machines, e.1 = req.MachineName → e.2.LastSeen = T := by
      intro e he hk2
      rcases (mem_update s req T e).1 he with ⟨_, hne⟩ | rfl
      · exact absurd hk2 hne
      · rfl
    have hseen := run_keeps_name_inv ops _ req.MachineName T hops hinv0 (k, m) hk hkey
    simp only at hseen
    rw [hseen] at hlive
    linarith
  · intro hsweeps
    rw [mem_getAll, hcut]
    refine ⟨⟨req.MachineName, ?_⟩, ?_⟩
    · refine run_keeps_entry ops _ req.MachineName _ (T + s.ttl - eps) hops hsweeps ?_ hupd
      rw [update_cutoff, cutoff_eq_sub s _ hlo hhi]
      show T + s.ttl - eps - s.ttl ≤ T
      linarith
    · show T + s.ttl - eps - s.ttl < T
      linarith

/-- Instance of C10: ttl 50, a push of "m1" at time 100 followed by a push of
another machine and a sweep at time 120; reads at 151 and at 149. -/
theorem ttl_expiry_witness :
    (∀ m ∈ (((NewStore 50).Update ⟨"m1", "h", "u", []⟩ 100).run
        [StoreOp.update ⟨"m2", "h", "u", []⟩ 110, StoreOp.cleanup 120]).GetAll (100 + 50 + 1),
        m.Name ≠ "m1") ∧
      machineOf ⟨"m1", "h", "u", []⟩ 100 ∈ (((NewStore 50).Update ⟨"m1", "h", "u", []⟩ 100).run
        [StoreOp.update ⟨"m2", "h", "u", []⟩ 110, StoreOp.cleanup 120]).GetAll (100 + 50 - 1) :=
  ⟨(ttl_expiry (NewStore 50) ⟨"m1", "h", "u", []⟩ 100 1
      [StoreOp.update ⟨"m2", "h", "u", []⟩ 110, StoreOp.cleanup 120]
      (newStore_wf 50) (by decide) (by decide) (by decide) (by decide)).1,
    (ttl_expiry (NewStore 50) ⟨"m1", "h", "u", []⟩ 100 1
      [StoreOp.update ⟨"m2", "h", "u", []⟩ 110, StoreOp.cleanup 120]
      (newStore_wf 50) (by decide) (by decide) (by decide) (by decide)).2 (by decide)⟩

/-! ## Splitting -/

theorem cutFirst_none_iff (sep : Char) (s : List Char) :
    cutFirst sep s = none ↔ sep ∉ s := by
  induction s with
  | nil => simp [cutFirst]
  | cons c cs ih =>
    by_cases h : c = sep
    · simp [cutFirst, h]
    · have h2 : ¬ sep = c := fun e => h e.symm
      simp [cutFirst, h, h2, ih]

theorem cutFirst_some_spec (sep : Char) (s pre post : List Char)
    (h : cutFirst sep s = some (pre, post)) : s = pre ++ sep :: post ∧ sep ∉ pre := by
  induction s generalizing pre with
  | nil => simp [cutFirst] at h
  | cons c cs ih =>
    by_cases hc : c = sep
    · simp [cutFirst, hc] at h
      obtain ⟨rfl, rfl⟩ := h
      simp [hc]
    · simp only [cutFirst, hc, if_false, Option.map_eq_some'] at h
      obtain ⟨⟨p1, p2⟩, hp, heq⟩ := h
      simp only [Prod.mk.injEq] at heq
      obtain ⟨rfl, rfl⟩ := heq
      obtain ⟨h1, h2⟩ := ih p1 hp
      refine ⟨by simp [h1], ?_⟩
      simp only [List.mem_cons, not_or]
      exact ⟨fun e => hc e.symm, h2⟩

theorem cutFirst_append (sep : Char) (pre post : List Char) (h : sep ∉ pre) :
    cutFirst sep (pre ++ sep :: post) = some (pre, post) := by
  induction pre with
  | nil => simp [cutFirst]
  | cons c cs ih =>
    simp only [List.mem_cons, not_or] at h
    have hc : ¬ c = sep := fun e => h.1 e.symm
    simp [cutFirst, hc, ih h.2]

theorem split_of_not_mem (sep : Char) (s : List Char) (h : sep ∉ s) : Split s sep = [s] := by
  unfold Split
  induction s with
  | nil => rfl
  | cons c cs ih =>
    simp only [List.mem_cons, not_or] at h
    have hc : ¬ c = sep := fun e => h.1 e.symm
    have := ih h.2
    simp only [List.cons.injEq] at this
    simp [splitAux, hc, this.1, this.2]

theorem split_append (sep : Char) (pre post : List Char) (h : sep ∉ pre) :
    Split (pre ++ sep :: post) sep = pre :: Split post sep := by
  unfold Split
  induction pre with
  | nil => simp [splitAux]
  | cons c cs ih =>
    simp only [List.mem_cons, not_or] at h
    have hc : ¬ c = sep := fun e => h.1 e.symm
    have := ih h.2
    simp only [List.cons.injEq] at this
    simp [splitAux, hc, this.1, this.2]

theorem split_not_mem (sep : Char) (s : List Char) : ∀ p ∈ Split s sep, sep ∉ p := by
  unfold Split
  induction s with
  | nil => simp [splitAux]
  | cons c cs ih =>
    by_cases hc : c = sep
    · intro p hp
      simp only [splitAux, hc, if_true, List.mem_cons] at hp
      rcases hp with rfl | hp
      · simp
      · exact ih p (by simpa using hp)
    · intro p hp
      simp only [splitAux, hc, if_false, List.mem_cons] at hp
      rcases hp with rfl | hp
      · simp only [List.mem_cons, not_or]
        exact ⟨fun e => hc e.symm, ih _ (by simp)⟩
      · exact ih p (by simp [hp])

/-- The four-way split either finds fewer than four fields, which are then all
the fields of the line, or yields the first three fields and the remainder. -/
theorem splitN_four_cases (s : List Char) (sep : Char) :
    ((SplitN s sep 4).length < 4 ∧ SplitN s sep 4 = Split s sep) ∨
      ∃ a b c r, SplitN s sep 4 = [a, b, c, r] ∧ Split s sep = a :: b :: c :: Split r sep ∧
        s = a ++ sep :: (b ++ sep :: (c ++ sep :: r)) ∧ sep ∉ a ∧ sep ∉ b ∧ sep ∉ c := by
  cases h1 : cutFirst sep s with
  | none =>
    left
    have := split_of_not_mem sep s ((cutFirst_none_iff sep s).1 h1)
    simp [SplitN, h1, this]
  | some p1 =>
    obtain ⟨a, r1⟩ := p1
    obtain ⟨e1, na⟩ := cutFirst_some_spec sep s a r1 h1
    cases h2 : cutFirst sep r1 with
    | none =>
      left
      have := split_of_not_mem sep r1 ((cutFirst_none_iff sep r1).1 h2)
      rw [e1, split_append sep a r1 na, this]
      rw [← e1]
      simp [SplitN, h1, h2]
    | some p2 =>
      obtain ⟨b, r2⟩ := p2
      obtain ⟨e2, nb⟩ := cutFirst_some_spec sep r1 b r2 h2
      cases h3 : cutFirst sep r2 with
      | none =>
        left
        have := split_of_not_mem sep r2 ((cutFirst_none_iff sep r2).1 h3)
        rw [e1, split_append sep a r1 na, e2, split_append sep b r2 nb, this]
        rw [← e2, ← e1]
        simp [SplitN, h1, h2, h3]
      | some p3 =>
        obtain ⟨c, r3⟩ := p3
        obtain ⟨e3, nc⟩ := cutFirst_some_spec sep r2 c r3 h3
        right
        refine ⟨a, b, c, r3, by simp [SplitN, h1, h2, h3], ?_, ?_, na, nb, nc⟩
        · rw [e1, split_append sep a r1 na, e2, split_append sep b r2 nb, e3,
            split_append sep c r3 nc]
        · rw [e1, e2, e3]

theorem split_length_pos (s : List Char) (sep : Char) : 0 < (Split s sep).length := by
  simp [Split]

theorem split_length_one_iff (s : List Char) (sep : Char) :
    (Split s sep).length = 1 ↔ sep ∉ s := by
  constructor
  · intro h hmem
    obtain ⟨pre, post, rfl⟩ := List.append_of_mem hmem
    cases hc : cutFirst sep (pre ++ sep :: post) with
    | none => exact (cutFirst_none_iff sep _).1 hc hmem
    | some p =>
      obtain ⟨e, n⟩ := cutFirst_some_spec sep _ p.1 p.2 hc
      rw [e, split_append sep p.1 p.2 n] at h
      have := split_length_pos p.2 sep
      simp only [List.length_cons] at h
      omega
  · intro h
    rw [split_of_not_mem sep s h]
    rfl

/-! ## Integer parsing -/

theorem parseDigits_some_digits (s : List Char) (acc v : Nat)
    (h : parseDigits s acc = some v) : ∀ c ∈ s, isDigit c = true := by
  induction s generalizing acc with
  | nil => simp
  | cons c cs ih =>
    by_cases hc : isDigit c = true
    · simp only [parseDigits, hc, if_true] at h
      intro d hd
      rcases List.mem_cons.1 hd with rfl | hd
      · exact hc
      · exact ih _ h d hd
    · simp [parseDigits, hc] at h

theorem parseInt_some_chars (s : List Char) (v : Int) (h : ParseInt s = some v) :
    ∀ c ∈ s, isDigit c = true ∨ c = '+' ∨ c = '-' := by
  cases s with
  | nil => simp [ParseInt] at h
  | cons c rest =>
    by_cases hsign : c = '+' ∨ c = '-'
    · simp only [ParseInt, if_pos hsign] at h
      by_cases hb : rest = []
      · simp [hb] at h
      · rw [if_neg hb] at h
        cases hun : parseDigits rest 0 with
        | none => simp [hun] at h
        | some un =>
          have hd := parseDigits_some_digits _ _ _ hun
          intro d hdm
          rcases List.mem_cons.1 hdm with rfl | hdm
          · exact Or.inr hsign
          · exact Or.inl (hd d hdm)
    · simp only [ParseInt, if_neg hsign] at h
      rw [if_neg (List.cons_ne_nil c rest)] at h
      cases hun : parseDigits (c :: rest) 0 with
      | none => simp [hun] at h
      | some un =>
        have hd := parseDigits_some_digits _ _ _ hun
        intro d hdm
        exact Or.inl (hd d hdm)

theorem parseInt_none_of_tab (s : List Char) (h : '\t' ∈ s) : ParseInt s = none := by
  cases hp : ParseInt s with
  | none => rfl
  | some v =>
    rcases parseInt_some_chars s v hp '\t' h with h1 | h1 | h1
    · exact absurd h1 (by decide)
    · exact absurd h1 (by decide)
    · exact absurd h1 (by decide)

/-! ## Lines with a wrong number of fields -/

theorem parseSessionLine_none_of_fieldCount (line : List Char) (h : fieldCount line ≠ 4) :
    parseSessionLine line = none := by
  unfold parseSessionLine
  split
  · rfl
  · rcases splitN_four_cases line '\t' with ⟨hlen, _⟩ | ⟨a, b, c, r, hs, hsplit, _, _, _, _⟩
    · split
      · rename_i heq
        rw [heq] at hlen
        simp at hlen
      · rfl
    · have hr : '\t' ∈ r := by
        by_contra hnot
        apply h
        unfold fieldCount
        rw [hsplit, split_of_not_mem '\t' r hnot]
        rfl
      rw [hs]
      simp only [parseInt_none_of_tab r hr]
      split <;> rfl

theorem parseWindowLine_none_of_fieldCount (line : List Char) (h : fieldCount line < 4) :
    parseWindowLine line = none := by
  unfold parseWindowLine
  split
  · rfl
  · rcases splitN_four_cases line '\t' with ⟨hlen, _⟩ | ⟨a, b, c, r, _, hsplit, _, _, _, _⟩
    · split
      · rename_i heq
        rw [heq] at hlen
        simp at hlen
      · rfl
    · unfold fieldCount at h
      rw [hsplit] at h
      simp only [List.length_cons] at h
      have := split_length_pos r '\t'
      omega

theorem parsePaneLine_none_of_fieldCount (line : List Char) (h : fieldCount line < 4) :
    parsePaneLine line = none := by
  unfold parsePaneLine
  split
  · rfl
  · rcases splitN_four_cases line '\t' with ⟨hlen, _⟩ | ⟨a, b, c, r, _, hsplit, _, _, _, _⟩
    · split
      · rename_i heq
        rw [heq] at hlen
        simp at hlen
      · rfl
    · unfold fieldCount at h
      rw [hsplit] at h
      simp only [List.length_cons] at h
      have := split_length_pos r '\t'
      omega

theorem filterMap_eraseIdx_of_none {α β : Type} (f : α → Option β) (l : List α) (i : Nat)
    (x : α) (hx : l[i]? = some x) (hf : f x = none) :
    (l.eraseIdx i).filterMap f = l.filterMap f := by
  induction l generalizing i with
  | nil => simp at hx
  | cons y ys ih =>
    cases i with
    | zero =>
      simp only [List.getElem?_cons_zero, Option.some.injEq] at hx
      subst hx
      simp [List.filterMap_cons, hf]
    | succ j =>
      simp only [List.getElem?_cons_succ] at hx
      simp only [List.eraseIdx_cons_succ, List.filterMap_cons, ih j hx]

/-- C2 (as amended): let `line` be the `i`-th line of the trimmed input.  If
its number of tab-separated fields differs from 4, `ParseSessions` returns
exactly the records of the other lines; if it has fewer than 4 fields, so do
`ParseWindows` and `ParsePanes`. -/
theorem malformed_line_skipped (output : String) (i : Nat) (line : List Char)
    (hline : (Split (TrimSpace output.data) '\n')[i]? = some line) :
    (fieldCount line ≠ 4 →
        parseSessionLine line = none ∧
        ParseSessions output = Except.ok
          (((Split (TrimSpace output.data) '\n').eraseIdx i).filterMap parseSessionLine)) ∧
      (fieldCount line < 4 →
        parseWindowLine line = none ∧
        ParseWindows output = Except.ok
          (((Split (TrimSpace output.data) '\n').eraseIdx i).filterMap parseWindowLine)) ∧
      (fieldCount line < 4 →
        parsePaneLine line = none ∧
        ParsePanes output = Except.ok
          (((Split (TrimSpace output.data) '\n').eraseIdx i).filterMap parsePaneLine)) := by
  refine ⟨fun h => ?_, fun h => ?_, fun h => ?_⟩
  · have hn := parseSessionLine_none_of_fieldCount line h
    refine ⟨hn, ?_⟩
    unfold ParseSessions
    simp only
    rw [filterMap_eraseIdx_of_none _ _ i line hline hn]
  · have hn := parseWindowLine_none_of_fieldCount line h
    refine ⟨hn, ?_⟩
    unfold ParseWindows
    simp only
    rw [filterMap_eraseIdx_of_none _ _ i line hline hn]
  · have hn := parsePaneLine_none_of_fieldCount line h
    refine ⟨hn, ?_⟩
    unfold ParsePanes
    simp only
    rw [filterMap_eraseIdx_of_none _ _ i line hline hn]

/-- Instance of C2 (as amended): the middle line of the repository's mixed
input has one field, and the sessions returned are those of the two other
lines. -/
theorem malformed_line_skipped_witness :
    (Split (TrimSpace "dev\t3\t1\t1700000000\nbad\nwork\t5\t0\t1700001000\n".data) '\n')[1]? =
        some "bad".data ∧
      fieldCount "bad".data ≠ 4 ∧
      ParseSessions "dev\t3\t1\t1700000000\nbad\nwork\t5\t0\t1700001000\n" = Except.ok
        (((Split (TrimSpace "dev\t3\t1\t1700000000\nbad\nwork\t5\t0\t1700001000\n".data)
          '\n').eraseIdx 1).filterMap parseSessionLine) :=
  ⟨by decide, by decide,
    ((malformed_line_skipped "dev\t3\t1\t1700000000\nbad\nwork\t5\t0\t1700001000\n" 1 "bad".data
      (by decide)).1 (by decide)).2⟩

/-- C2 (as stated) fails.  For `ParseWindows` and `ParsePanes` a line with five
tab-separated fields is not skipped: its fourth part keeps the remainder.  For
`ParseSessions` an input line of five fields whose first field is empty is
not skipped when it is the first line: trimming the input removes its leading
tab and leaves four fields. -/
theorem five_field_line_not_skipped :
    fieldCount "0\tname\t1\t2\textra".data = 5 ∧
      ParseWindows "0\tname\t1\t2\textra" =
        Except.ok [{ Index := 0, Name := "name", Active := true, Panes := [] }] ∧
      ParsePanes "0\tname\t1\t2\textra" =
        Except.ok [{ Index := 0, CurrentCommand := "name", Active := true,
                     Title := "2\textra" }] ∧
      fieldCount "\ta\t1\t1\t5".data = 5 ∧
      ParseSessions "\ta\t1\t1\t5" =
        Except.ok [{ Name := "a", Windows := 1, WindowDetails := [], Attached := true,
                     LastActivity := timeUnix 5 0 }] :=
  ⟨by decide, rfl, rfl, by decide, rfl⟩

/-! ## Decimal text -/

theorem parseDigits_eq_digitsValue (ds : List Char) (acc : Nat)
    (hd : ∀ c ∈ ds, isDigit c = true) :
    parseDigits ds acc = some (acc * 10 ^ ds.length + digitsValue ds) := by
  induction ds generalizing acc with
  | nil => simp [parseDigits, digitsValue]
  | cons c cs ih =>
    have hc : isDigit c = true := hd c (List.mem_cons_self _ _)
    have hcs : ∀ d ∈ cs, isDigit d = true := fun d h => hd d (List.mem_cons_of_mem _ h)
    simp only [parseDigits, hc, if_true]
    rw [ih _ hcs]
    congr 1
    have hv : digitsValue (c :: cs) = digitsValue cs + 10 ^ cs.length * (c.toNat - 48) := by
      unfold digitsValue
      simp [Nat.ofDigits_append]
    rw [hv, List.length_cons]
    ring

theorem isDigit_not_sign (c : Char) (h : isDigit c = true) : ¬ (c = '+' ∨ c = '-') := by
  rintro (rfl | rfl) <;> exact absurd h (by decide)

theorem isDigit_not_space (c : Char) (h : isDigit c = true) : isSpace c = false := by
  unfold isDigit at h
  simp only [Bool.and_eq_true, decide_eq_true_eq] at h
  unfold isSpace
  simp only [Bool.or_eq_false_iff, Bool.and_eq_false_iff, decide_eq_false_iff_not, beq_eq_false_iff_ne, ne_eq]
  omega

theorem parseInt_of_isDecimal (s : List Char) (v : Int) (h : IsDecimal s v)
    (hlo : minDuration ≤ v) (hhi : v ≤ maxDuration) : ParseInt s = some v := by
  unfold minDuration at hlo
  unfold maxDuration at hhi
  cases h with
  | unsigned _ hne hd =>
    cases s with
    | nil => exact absurd rfl hne
    | cons c cs =>
      have hsign := isDigit_not_sign c (hd c (List.mem_cons_self _ _))
      have hminus : ¬ c = '-' := fun e => hsign (Or.inr e)
      have hplus : ¬ c = '+' := fun e => hsign (Or.inl e)
      have hle : ¬ (9223372036854775808 ≤ digitsValue (c :: cs)) := by omega
      simp [ParseInt, hplus, parseDigits_eq_digitsValue (c :: cs) 0 hd, hminus, hle]
  | plus ds hne hd =>
    have hle : ¬ (9223372036854775808 ≤ digitsValue ds) := by omega
    simp [ParseInt, hne, parseDigits_eq_digitsValue ds 0 hd, hle]
  | minus ds hne hd =>
    have hle : ¬ (9223372036854775808 < digitsValue ds) := by omega
    simp [ParseInt, hne, parseDigits_eq_digitsValue ds 0 hd, hle]

theorem isDecimal_chars (s : List Char) (v : Int) (h : IsDecimal s v) :
    ∀ c ∈ s, isDigit c = true ∨ c = '+' ∨ c = '-' := by
  cases h with
  | unsigned ds hne hd => exact fun c hc => Or.inl (hd c hc)
  | plus ds hne hd =>
    intro c hc
    rcases List.mem_cons.1 hc with rfl | hc
    · exact Or.inr (Or.inl rfl)
    · exact Or.inl (hd c hc)
  | minus ds hne hd =>
    intro c hc
    rcases List.mem_cons.1 hc with rfl | hc
    · exact Or.inr (Or.inr rfl)
    · exact Or.inl (hd c hc)

theorem isDecimal_no_tab (s : List Char) (v : Int) (h : IsDecimal s v) : '\t' ∉ s := by
  intro hm
  rcases isDecimal_chars s v h _ hm with h1 | h1 | h1 <;> exact absurd h1 (by decide)

theorem isDecimal_no_newline (s : List Char) (v : Int) (h : IsDecimal s v) : '\n' ∉ s := by
  intro hm
  rcases isDecimal_chars s v h _ hm with h1 | h1 | h1 <;> exact absurd h1 (by decide)

theorem isDecimal_getLast (s : List Char) (v : Int) (h : IsDecimal s v) :
    ∃ d, s.getLast? = some d ∧ isDigit d = true := by
  cases h with
  | unsigned _ hne hd =>
    exact ⟨s.getLast hne, List.getLast?_eq_getLast _ hne, hd _ (List.getLast_mem hne)⟩
  | plus ds hne hd =>
    refine ⟨ds.getLast hne, ?_, hd _ (List.getLast_mem hne)⟩
    rw [List.getLast?_cons, List.getLast?_eq_getLast _ hne]
    rfl
  | minus ds hne hd =>
    refine ⟨ds.getLast hne, ?_, hd _ (List.getLast_mem hne)⟩
    rw [List.getLast?_cons, List.getLast?_eq_getLast _ hne]
    rfl

/-! ## Trimming and joining -/

theorem dropWhile_eq_self_of_head (p : Char → Bool) (l : List Char)
    (h : ∀ c, l.head? = some c → p c = false) : l.dropWhile p = l := by
  cases l with
  | nil => rfl
  | cons c cs =>
    have hc : p c = false := h c rfl
    simp [List.dropWhile, hc]

theorem trimSpace_eq_self (s : List Char)
    (hh : ∀ c, s.head? = some c → isSpace c = false)
    (hl : ∀ d, s.getLast? = some d → isSpace d = false) : TrimSpace s = s := by
  unfold TrimSpace
  rw [dropWhile_eq_self_of_head isSpace s hh,
    dropWhile_eq_self_of_head isSpace s.reverse (by simpa using hl), List.reverse_reverse]

theorem joinLines_cons_cons (l l2 : List Char) (ls : List (List Char)) :
    joinLines (l :: l2 :: ls) = l ++ '\n' :: joinLines (l2 :: ls) := rfl

theorem split_joinLines (ls : List (List Char)) (hne : ls ≠ [])
    (hnl : ∀ l ∈ ls, '\n' ∉ l) : Split (joinLines ls) '\n' = ls := by
  induction ls with
  | nil => exact absurd rfl hne
  | cons l rest ih =>
    cases rest with
    | nil => exact split_of_not_mem '\n' l (hnl l (List.mem_cons_self _ _))
    | cons l2 rest2 =>
      rw [joinLines_cons_cons, split_append '\n' l _ (hnl l (List.mem_cons_self _ _)),
        ih (List.cons_ne_nil _ _) (fun x hx => hnl x (List.mem_cons_of_mem _ hx))]

theorem head?_joinLines (l : List Char) (ls : List (List Char)) (hne : l ≠ []) :
    (joinLines (l :: ls)).head? = l.head? := by
  cases ls with
  | nil => rfl
  | cons l2 rest =>
    rw [joinLines_cons_cons]
    cases l with
    | nil => exact absurd rfl hne
    | cons c cs => rfl

theorem getLast?_joinLines (ls : List (List Char)) (l : List Char)
    (hlast : ls.getLast? = some l) (hne : l ≠ []) :
    (joinLines ls).getLast? = l.getLast? := by
  induction ls with
  | nil => simp at hlast
  | cons x rest ih =>
    cases rest with
    | nil =>
      simp only [List.getLast?_singleton, Option.some.injEq] at hlast
      rw [← hlast]
      rfl
    | cons l2 rest2 =>
      rw [List.getLast?_cons_cons] at hlast
      have hj : joinLines (l2 :: rest2) ≠ [] := by
        intro hnil
        have := ih hlast
        rw [hnil] at this
        simp only [List.getLast?_nil] at this
        exact hne (List.getLast?_eq_none_iff.1 this.symm)
      rw [joinLines_cons_cons, ← ih hlast]
      have : x ++ '\n' :: joinLines (l2 :: rest2) = (x ++ ['\n']) ++ joinLines (l2 :: rest2) := by
        simp
      rw [this, List.getLast?_append_of_ne_nil _ hj]

/-! ## Well-formed session lines -/

theorem sessionLine_text_ne_nil (l : SessionLine) : l.text ≠ [] := by
  unfold SessionLine.text
  simp

theorem sessionLine_text_no_newline (l : SessionLine) (h : l.WellFormed) : '\n' ∉ l.text := by
  obtain ⟨_, h2, _, h4, h5, h6, _⟩ := h
  have h7 := isDecimal_no_newline _ _ h5
  have h8 := isDecimal_no_newline _ _ h6
  unfold SessionLine.text
  simp only [List.mem_append, List.mem_cons, not_or]
  exact ⟨h2, by decide, h7, by decide, h4, by decide, h8⟩

theorem sessionLine_text_getLast (l : SessionLine) (h : l.WellFormed) :
    ∃ d, l.text.getLast? = some d ∧ isDigit d = true := by
  obtain ⟨d, hd, hdig⟩ := isDecimal_getLast _ _ h.2.2.2.2.2.1
  refine ⟨d, ?_, hdig⟩
  have hne : l.epoch ≠ [] := by
    intro hnil
    rw [hnil] at hd
    simp at hd
  have : l.text = (l.name ++ '\t' :: (l.count ++ '\t' :: (l.flag ++ ['\t']))) ++ l.epoch := by
    unfold SessionLine.text
    simp
  rw [this, List.getLast?_append_of_ne_nil _ hne, hd]

theorem splitN_sessionLine (l : SessionLine) (h : l.WellFormed) :
    SplitN l.text '\t' 4 = [l.name, l.count, l.flag, l.epoch] := by
  obtain ⟨h1, _, h3, _, h5, _⟩ := h
  have h2 := isDecimal_no_tab _ _ h5
  unfold SessionLine.text
  simp [SplitN, cutFirst_append, h1, h2, h3]

theorem parseSessionLine_text (l : SessionLine) (h : l.WellFormed) :
    parseSessionLine l.text = some l.session := by
  unfold parseSessionLine
  rw [if_neg (sessionLine_text_ne_nil l), splitN_sessionLine l h]
  obtain ⟨_, _, _, _, h5, h6, h7, h8, h9, h10⟩ := h
  simp only [Atoi, parseInt_of_isDecimal _ _ h5 h7 h8, parseInt_of_isDecimal _ _ h6 h9 h10]
  rfl

theorem filterMap_sessionLines (ls : List SessionLine) (h : ∀ l ∈ ls, l.WellFormed) :
    (ls.map SessionLine.text).filterMap parseSessionLine = ls.map SessionLine.session := by
  induction ls with
  | nil => rfl
  | cons l rest ih =>
    simp only [List.map_cons, List.filterMap_cons,
      parseSessionLine_text l (h l (List.mem_cons_self _ _))]
    rw [ih (fun x hx => h x (List.mem_cons_of_mem _ hx))]

/-- C3 (as amended): for every list of N ≥ 1 well-formed session lines whose
first line has a non-empty name that does not begin with white space,
`ParseSessions` applied to the lines joined by newlines returns exactly the N
sessions the lines stand for, in line order: name equal to the first column,
window count equal to the integer of the second, attached exactly when the
third is "1", last activity the fourth taken as seconds since the epoch. -/
theorem parseSessions_wellFormed (first : SessionLine) (rest : List SessionLine)
    (hwf : ∀ l ∈ first :: rest, l.WellFormed)
    (hfirst : ∃ c cs, first.name = c :: cs ∧ isSpace c = false) :
    ParseSessions (String.mk (joinLines ((first :: rest).map SessionLine.text))) =
      Except.ok ((first :: rest).map SessionLine.session) := by
  have hnl : ∀ x ∈ (first :: rest).map SessionLine.text, '\n' ∉ x := by
    intro x hx
    obtain ⟨l, hl, rfl⟩ := List.mem_map.1 hx
    exact sessionLine_text_no_newline l (hwf l hl)
  have hne : (first :: rest).map SessionLine.text ≠ [] := by simp
  have htrim : TrimSpace (joinLines ((first :: rest).map SessionLine.text)) =
      joinLines ((first :: rest).map SessionLine.text) := by
    apply trimSpace_eq_self
    · intro c hc
      obtain ⟨c0, cs, hname, hsp⟩ := hfirst
      rw [List.map_cons, head?_joinLines _ _ (sessionLine_text_ne_nil first)] at hc
      unfold SessionLine.text at hc
      rw [hname] at hc
      simp only [List.cons_append, List.head?_cons, Option.some.injEq] at hc
      rw [← hc]
      exact hsp
    · intro d hd
      obtain ⟨lastLine, hlast⟩ : ∃ x, (first :: rest).getLast? = some x :=
        ⟨_, List.getLast?_eq_getLast _ (List.cons_ne_nil _ _)⟩
      have hmem : lastLine ∈ first :: rest := List.mem_of_getLast?_eq_some hlast
      have hlast2 : ((first :: rest).map SessionLine.text).getLast? = some lastLine.text := by
        rw [List.getLast?_map, hlast]
        rfl
      rw [getLast?_joinLines _ _ hlast2 (sessionLine_text_ne_nil lastLine)] at hd
      obtain ⟨d2, hd2, hdig⟩ := sessionLine_text_getLast lastLine (hwf lastLine hmem)
      rw [hd2] at hd
      simp only [Option.some.injEq] at hd
      rw [← hd]
      exact isDigit_not_space d2 hdig
  unfold ParseSessions
  simp only
  rw [htrim, split_joinLines _ hne hnl, filterMap_sessionLines _ hwf]

/-- Instance of C3 (as amended): the two lines of the repository's parser
test. -/
theorem parseSessions_wellFormed_witness :
    ParseSessions (String.mk (joinLines
        ([⟨"dev".data, "3".data, "1".data, "1700000000".data, 3, 1700000000⟩,
          ⟨"work".data, "5".data, "0".data, "1700001000".data, 5, 1700001000⟩].map
          SessionLine.text))) =
      Except.ok
        [{ Name := "dev", Windows := 3, WindowDetails := [], Attached := true,
           LastActivity := timeUnix 1700000000 0 },
         { Name := "work", Windows := 5, WindowDetails := [], Attached := false,
           LastActivity := timeUnix 1700001000 0 }] :=
  parseSessions_wellFormed
    ⟨"dev".data, "3".data, "1".data, "1700000000".data, 3, 1700000000⟩
    [⟨"work".data, "5".data, "0".data, "1700001000".data, 5, 1700001000⟩]
    (by
      intro l hl
      simp only [List.mem_cons, List.mem_singleton, List.not_mem_nil, or_false] at hl
      rcases hl with rfl | rfl
      · exact ⟨by decide, by decide, by decide, by decide,
          IsDecimal.unsigned "3".data (by decide) (by decide),
          IsDecimal.unsigned "1700000000".data (by decide) (by decide),
          by decide, by decide, by decide, by decide⟩
      · exact ⟨by decide, by decide, by decide, by decide,
          IsDecimal.unsigned "5".data (by decide) (by decide),
          IsDecimal.unsigned "1700001000".data (by decide) (by decide),
          by decide, by decide, by decide, by decide⟩)
    ⟨'d', "ev".data, rfl, by decide⟩

/-- C3 (as stated) fails: the single line with name " dev" is well formed, yet
the session returned is named "dev"; and the single well-formed line with an
empty name yields no session at all. -/
theorem parseSessions_trims_first_name :
    SessionLine.WellFormed ⟨" dev".data, "3".data, "1".data, "1700000000".data, 3, 1700000000⟩ ∧
      ParseSessions (String.mk (joinLines
        [SessionLine.text ⟨" dev".data, "3".data, "1".data, "1700000000".data, 3, 1700000000⟩])) =
        Except.ok [{ Name := "dev", Windows := 3, WindowDetails := [], Attached := true,
                     LastActivity := timeUnix 1700000000 0 }] ∧
      ParseSessions (String.mk (joinLines
        [SessionLine.text ⟨" dev".data, "3".data, "1".data, "1700000000".data, 3, 1700000000⟩])) ≠
        Except.ok [SessionLine.session
          ⟨" dev".data, "3".data, "1".data, "1700000000".data, 3, 1700000000⟩] ∧
      SessionLine.WellFormed ⟨[], "3".data, "1".data, "1700000000".data, 3, 1700000000⟩ ∧
      ParseSessions (String.mk (joinLines
        [SessionLine.text ⟨[], "3".data, "1".data, "1700000000".data, 3, 1700000000⟩])) =
        Except.ok [] := by
  refine ⟨?_, rfl, ?_, ?_, rfl⟩
  · exact ⟨by decide, by decide, by decide, by decide,
      IsDecimal.unsigned "3".data (by decide) (by decide),
      IsDecimal.unsigned "1700000000".data (by decide) (by decide),
      by decide, by decide, by decide, by decide⟩
  · simp only [ParseSessions, ne_eq, Except.ok.injEq]
    decide
  · exact ⟨by decide, by decide, by decide, by decide,
      IsDecimal.unsigned "3".data (by decide) (by decide),
      IsDecimal.unsigned "1700000000".data (by decide) (by decide),
      by decide, by decide, by decide, by decide⟩

/-! ## Deleting a skipped line -/

/-- C4 (as stated) fails: in the text "bad", newline, " a\t1\t1\t5" the first
line is skipped, and deleting it changes the second record: its name is " a"
in the original text and "a" once the line is first and is trimmed. -/
theorem skipped_line_deletion_changes_result :
    (Split "bad\n a\t1\t1\t5".data '\n')[0]? = some "bad".data ∧
      parseSessionLine "bad".data = none ∧
      joinLines ((Split "bad\n a\t1\t1\t5".data '\n').eraseIdx 0) = " a\t1\t1\t5".data ∧
      ParseSessions "bad\n a\t1\t1\t5" =
        Except.ok [{ Name := " a", Windows := 1, WindowDetails := [], Attached := true,
                     LastActivity := timeUnix 5 0 }] ∧
      ParseSessions " a\t1\t1\t5" =
        Except.ok [{ Name := "a", Windows := 1, WindowDetails := [], Attached := true,
                     LastActivity := timeUnix 5 0 }] ∧
      ParseSessions " a\t1\t1\t5" ≠ ParseSessions "bad\n a\t1\t1\t5" := by
  refine ⟨by decide, by decide, by decide, rfl, rfl, ?_⟩
  simp only [ParseSessions, ne_eq, Except.ok.injEq]
  decide

/-! ## Map assignment and lookup -/

theorem find?_filter_ne_key (m : List (String × Machine)) (k : String) :
    (m.filter (fun e => decide (e.1 ≠ k))).find? (fun e => decide (e.1 = k)) = none := by
  rw [List.find?_eq_none]
  intro e he
  have := (List.mem_filter.1 he).2
  simpa using this

theorem mapLookup_mapAssign_self (m : List (String × Machine)) (k : String) (v : Machine) :
    mapLookup (mapAssign m k v) k = some v := by
  unfold mapLookup mapAssign
  rw [List.find?_append, find?_filter_ne_key]
  simp

theorem find?_filter_other_key (m : List (String × Machine)) (k k2 : String) (h : k2 ≠ k) :
    (m.filter (fun e => decide (e.1 ≠ k))).find? (fun e => decide (e.1 = k2)) =
      m.find? (fun e => decide (e.1 = k2)) := by
  rw [List.find?_filter]
  congr 1
  funext e
  by_cases h2 : e.1 = k2
  · have hne : e.1 ≠ k := fun he => h (h2.symm.trans he)
    simp [h2, hne]
    exact h
  · simp [h2]

theorem mapLookup_mapAssign_other (m : List (String × Machine)) (k k2 : String) (v : Machine)
    (h : k2 ≠ k) : mapLookup (mapAssign m k v) k2 = mapLookup m k2 := by
  unfold mapLookup mapAssign
  rw [List.find?_append, find?_filter_other_key m k k2 h]
  have hk : ¬ k = k2 := fun e => h e.symm
  cases List.find? (fun e => decide (e.1 = k2)) m with
  | none => simp [hk]
  | some x => simp

theorem filter_key_mapAssign_self (m : List (String × Machine)) (k : String) (v : Machine) :
    (mapAssign m k v).filter (fun e => decide (e.1 = k)) = [(k, v)] := by
  unfold mapAssign
  rw [List.filter_append, List.filter_filter]
  have hnil : m.filter (fun e => decide (e.1 = k) && decide (e.1 ≠ k)) = [] := by
    rw [List.filter_eq_nil_iff]
    intro e _
    by_cases h : e.1 = k <;> simp [h]
  simp [hnil]

/-! ## Store.Update: the timestamp and the frame -/

/-- C11: for every prior store state, request and clock reading `now` of the
`Update` call, the one record stored under the request's machine name has
`LastSeen = now`, hence lies between any timestamp taken before and any taken
after the call; neither the request nor a replaced record has a say. -/
theorem update_sets_lastSeen (s : Store) (req : PushRequest) (now : Time) :
    ∃ m, mapLookup (s.Update req now).machines req.MachineName = some m ∧
      (s.Update req now).machines.filter (fun e => decide (e.1 = req.MachineName)) =
        [(req.MachineName, m)] ∧
      m.LastSeen = now ∧
      (∀ before after : Time, before ≤ now → now ≤ after →
        before ≤ m.LastSeen ∧ m.LastSeen ≤ after) :=
  ⟨machineOf req now, mapLookup_mapAssign_self _ _ _, filter_key_mapAssign_self _ _ _, rfl,
    fun _ _ h1 h2 => ⟨h1, h2⟩⟩

/-- Instance of C11: a push at time 200 over a record last seen at time 3. -/
theorem update_sets_lastSeen_witness :
    ∃ m, mapLookup (Store.Update
        { machines := [("m1", ⟨"m1", "h", "u", [], 3⟩)], ttl := 60 }
        ⟨"m1", "h", "u", []⟩ 200).machines "m1" = some m ∧
      m.LastSeen = 200 ∧ (199 : Int) ≤ m.LastSeen ∧ m.LastSeen ≤ 201 := by
  obtain ⟨m, h1, _, h3, h4⟩ := update_sets_lastSeen
    { machines := [("m1", ⟨"m1", "h", "u", [], 3⟩)], ttl := 60 } ⟨"m1", "h", "u", []⟩ 200
  exact ⟨m, h1, h3, h4 199 201 (by decide) (by decide)⟩

/-- C20: `Update(req)` changes only the entry keyed by `req.MachineName`: every
other key has the same binding before and after, every key present before is
present afterwards, the ttl is unchanged; and a mutating call after which some
key is gone is a `cleanup`. -/
theorem update_changes_only_its_key (s : Store) (req : PushRequest) (now : Time) :
    (∀ k, k ≠ req.MachineName →
        mapLookup (s.Update req now).machines k = mapLookup s.machines k ∧
        ∀ m, (k, m) ∈ (s.Update req now).machines ↔ (k, m) ∈ s.machines) ∧
      (∀ k ∈ s.machines.map Prod.fst, k ∈ (s.Update req now).machines.map Prod.fst) ∧
      (s.Update req now).ttl = s.ttl ∧
      (∀ op : StoreOp, (∃ k ∈ s.machines.map Prod.fst, k ∉ (s.apply op).machines.map Prod.fst) →
        ∃ t, op = StoreOp.cleanup t) := by
  have hkeys : ∀ (r : PushRequest) (t : Time), ∀ k ∈ s.machines.map Prod.fst,
      k ∈ (s.Update r t).machines.map Prod.fst := by
    intro r t k hk
    obtain ⟨e, he, rfl⟩ := List.mem_map.1 hk
    by_cases h : e.1 = r.MachineName
    · exact List.mem_map.2 ⟨(r.MachineName, machineOf r t),
        (mem_update s r t _).2 (Or.inr rfl), h.symm⟩
    · exact List.mem_map.2 ⟨e, (mem_update s r t e).2 (Or.inl ⟨he, h⟩), rfl⟩
  refine ⟨?_, hkeys req now, rfl, ?_⟩
  · intro k hk
    refine ⟨mapLookup_mapAssign_other _ _ _ _ hk, fun m => ?_⟩
    rw [mem_update]
    constructor
    · rintro (⟨h, _⟩ | h)
      · exact h
      · exact absurd (congrArg Prod.fst h) hk
    · exact fun h => Or.inl ⟨h, hk⟩
  · rintro op ⟨k, hk, hgone⟩
    cases op with
    | update r t => exact absurd (hkeys r t k hk) hgone
    | cleanup t => exact ⟨t, rfl⟩

/-- Instance of C20: pushing "m2" leaves the binding of "m1" as it was. -/
theorem update_changes_only_its_key_witness :
    mapLookup (Store.Update { machines := [("m1", ⟨"m1", "h1", "u1", [], 3⟩)], ttl := 60 }
        ⟨"m2", "h2", "u2", []⟩ 9).machines "m1" = some ⟨"m1", "h1", "u1", [], 3⟩ :=
  ((update_changes_only_its_key { machines := [("m1", ⟨"m1", "h1", "u1", [], 3⟩)], ttl := 60 }
    ⟨"m2", "h2", "u2", []⟩ 9).1 "m1" (by decide)).1

/-! ## The parsers never fail -/

/-- C12: for every input string each of `ParseSessions`, `ParseWindows` and
`ParsePanes` returns a result with a nil error. -/
theorem parsers_never_fail (output : String) :
    (∃ sessions, ParseSessions output = Except.ok sessions) ∧
      (∃ windows, ParseWindows output = Except.ok windows) ∧
      (∃ panes, ParsePanes output = Except.ok panes) :=
  ⟨⟨_, rfl⟩, ⟨_, rfl⟩, ⟨_, rfl⟩⟩

theorem dropWhile_eq_nil_of_all (p : Char → Bool) (l : List Char)
    (h : ∀ c ∈ l, p c = true) : l.dropWhile p = [] := by
  induction l with
  | nil => rfl
  | cons c cs ih =>
    simp only [List.dropWhile, h c (List.mem_cons_self _ _)]
    exact ih (fun d hd => h d (List.mem_cons_of_mem _ hd))

theorem trimSpace_eq_nil_of_all (s : List Char) (h : ∀ c ∈ s, isSpace c = true) :
    TrimSpace s = [] := by
  unfold TrimSpace
  rw [dropWhile_eq_nil_of_all isSpace s h]
  rfl

/-- C14: for every input string consisting only of white-space characters, the
empty string included, `ParseSessions`, `ParseWindows` and `ParsePanes` return
an empty sequence and no error. -/
theorem whitespace_only_input_empty (output : String)
    (h : ∀ c ∈ output.data, isSpace c = true) :
    ParseSessions output = Except.ok [] ∧ ParseWindows output = Except.ok [] ∧
      ParsePanes output = Except.ok [] := by
  have ht := trimSpace_eq_nil_of_all output.data h
  refine ⟨?_, ?_, ?_⟩
  · unfold ParseSessions
    simp only [ht]
    rfl
  · unfold ParseWindows
    simp only [ht]
    rfl
  · unfold ParsePanes
    simp only [ht]
    rfl

/-- Instance of C14: the white-space input of the repository's parser test. -/
theorem whitespace_only_input_empty_witness :
    ParseSessions "  \n  \n" = Except.ok [] ∧ ParseWindows "  \n  \n" = Except.ok [] ∧
      ParsePanes "  \n  \n" = Except.ok [] :=
  whitespace_only_input_empty "  \n  \n" (by decide)

/-! ## OIDCAuth.audienceAccepted -/

theorem matchesAny_iff (a1 : String) (ids : List String) :
    matchesAny a1 ids = true ↔ a1 ∈ ids := by
  induction ids with
  | nil => simp [matchesAny]
  | cons a2 rest ih =>
    by_cases h : a1 = a2
    · simp [matchesAny, h]
    · simp [matchesAny, h, ih]

/-- C19: `audienceAccepted(aud)` is true exactly when some element of `aud`
equals one of the accepted client IDs; it is false for an empty (or nil)
`aud`. -/
theorem audienceAccepted_iff (acceptedClientIDs aud : List String) :
    (audienceAccepted acceptedClientIDs aud = true ↔
        ∃ a1, a1 ∈ aud ∧ a1 ∈ acceptedClientIDs) ∧
      audienceAccepted acceptedClientIDs [] = false := by
  refine ⟨?_, rfl⟩
  induction aud with
  | nil => simp [audienceAccepted]
  | cons a1 rest ih =>
    by_cases h : matchesAny a1 acceptedClientIDs = true
    · have hm := (matchesAny_iff a1 acceptedClientIDs).1 h
      simp only [audienceAccepted, h, if_true, true_iff]
      exact ⟨a1, List.mem_cons_self _ _, hm⟩
    · have hm : a1 ∉ acceptedClientIDs := fun hmem => h ((matchesAny_iff _ _).2 hmem)
      simp only [audienceAccepted, h, if_false, Bool.false_eq_true]
      rw [ih]
      constructor
      · rintro ⟨x, hx, hx2⟩
        exact ⟨x, List.mem_cons_of_mem _ hx, hx2⟩
      · rintro ⟨x, hx, hx2⟩
        rcases List.mem_cons.1 hx with rfl | hx
        · exact absurd hx2 hm
        · exact ⟨x, hx, hx2⟩

/-! ## The session collector -/

theorem parseSessionLine_windowDetails (line : List Char) (s : TmuxSession)
    (h : parseSessionLine line = some s) : s.WindowDetails = [] := by
  unfold parseSessionLine at h
  split at h
  · exact absurd h (by simp)
  · split at h
    · split at h
      · exact absurd h (by simp)
      · split at h
        · exact absurd h (by simp)
        · simp only [Option.some.injEq] at h
          rw [← h]
    · exact absurd h (by simp)

theorem parseWindowLine_panes (line : List Char) (w : TmuxWindow)
    (h : parseWindowLine line = some w) : w.Panes = [] := by
  unfold parseWindowLine at h
  split at h
  · exact absurd h (by simp)
  · split at h
    · split at h
      · exact absurd h (by simp)
      · simp only [Option.some.injEq] at h
        rw [← h]
    · exact absurd h (by simp)

theorem parseSessions_windowDetails (text : String) (parsed : List TmuxSession)
    (h : ParseSessions text = Except.ok parsed) : ∀ s ∈ parsed, s.WindowDetails = [] := by
  unfold ParseSessions at h
  simp only [Except.ok.injEq] at h
  intro s hs
  rw [← h] at hs
  obtain ⟨line, _, hl⟩ := List.mem_filterMap.1 hs
  exact parseSessionLine_windowDetails line s hl

theorem parseWindows_panes (text : String) (parsed : List TmuxWindow)
    (h : ParseWindows text = Except.ok parsed) : ∀ w ∈ parsed, w.Panes = [] := by
  unfold ParseWindows at h
  simp only [Except.ok.injEq] at h
  intro w hw
  rw [← h] at hw
  obtain ⟨line, _, hl⟩ := List.mem_filterMap.1 hw
  exact parseWindowLine_panes line w hl

theorem listWindows_of_output (t : Tmux) (name : String) (text : String)
    (h : t.windows name = CmdResult.output text) :
    ∃ parsed, ParseWindows text = Except.ok parsed ∧
      listWindows t name = Except.ok (parsed.map (enrichWindow t name)) := by
  refine ⟨_, rfl, ?_⟩
  unfold listWindows
  rw [h]
  rfl

theorem listWindows_of_err (t : Tmux) (name : String) (msg : String)
    (h : (t.windows name).err = some msg) :
    listWindows t name = Except.error ("tmux list-windows -t " ++ name ++ ": " ++ msg) := by
  unfold listWindows
  cases hw : t.windows name with
  | output text => rw [hw] at h; simp [CmdResult.err] at h
  | exitError code m =>
    rw [hw] at h
    simp only [CmdResult.err, Option.some.injEq] at h
    rw [h]
  | otherError m =>
    rw [hw] at h
    simp only [CmdResult.err, Option.some.injEq] at h
    rw [h]

/-- C16: with the `tmux list-sessions` call modelled as output text, an exit
error with a code, or another error, `ListSessions` returns an empty sequence
and no error when the call fails with exit code 1, and an error (carrying no
sessions) for every other failure of the call. -/
theorem listSessions_top_level_failure (t : Tmux) :
    (∀ msg, t.sessions = CmdResult.exitError 1 msg → ListSessions t = Except.ok []) ∧
      (∀ code msg, t.sessions = CmdResult.exitError code msg → code ≠ 1 →
        ListSessions t = Except.error ("tmux list-sessions: " ++ msg)) ∧
      (∀ msg, t.sessions = CmdResult.otherError msg →
        ListSessions t = Except.error ("tmux list-sessions: " ++ msg)) := by
  refine ⟨fun msg h => ?_, fun code msg h hc => ?_, fun msg h => ?_⟩
  · unfold ListSessions
    rw [h]
    rfl
  · unfold ListSessions
    rw [h]
    simp only [if_neg hc]
  · unfold ListSessions
    rw [h]

/-- Instance of C16: exit status 1 gives no sessions and no error, exit status
2 gives an error. -/
theorem listSessions_top_level_failure_witness :
    ListSessions { sessions := CmdResult.exitError 1 "exit status 1",
                   windows := fun _ => CmdResult.otherError "unused",
                   panes := fun _ => CmdResult.otherError "unused" } = Except.ok [] ∧
      ListSessions { sessions := CmdResult.exitError 2 "exit status 2",
                     windows := fun _ => CmdResult.otherError "unused",
                     panes := fun _ => CmdResult.otherError "unused" } =
        Except.error "tmux list-sessions: exit status 2" :=
  ⟨(listSessions_top_level_failure _).1 "exit status 1" rfl,
    (listSessions_top_level_failure _).2.1 2 "exit status 2" rfl (by decide)⟩

/-- C17: whenever the top-level listing succeeds with output `text`,
`ListSessions` returns no error and one session per session parsed from
`text`, in the same order and with the same name, window count, attached flag
and last activity.  A session whose window listing fails has empty window
details; a session whose window listing succeeds carries the result of that
listing, which is the windows parsed from its output (same index, name and
active flag, in order), each with the panes listed for it or with none when
its pane listing fails. -/
theorem listSessions_best_effort (t : Tmux) (text : String)
    (h : t.sessions = CmdResult.output text) :
    ∃ parsed result, ParseSessions text = Except.ok parsed ∧
      ListSessions t = Except.ok result ∧
      List.Forall₂ (fun p r =>
        r.Name = p.Name ∧ r.Windows = p.Windows ∧ r.Attached = p.Attached ∧
        r.LastActivity = p.LastActivity ∧
        (∀ msg, (t.windows p.Name).err = some msg → r.WindowDetails = []) ∧
        (∀ wtext, t.windows p.Name = CmdResult.output wtext →
          ∃ wparsed, ParseWindows wtext = Except.ok wparsed ∧
            List.Forall₂ (fun pw w =>
              w.Index = pw.Index ∧ w.Name = pw.Name ∧ w.Active = pw.Active ∧
              (∀ e, listPanes t p.Name pw.Index = Except.error e → w.Panes = []) ∧
              (∀ panes, listPanes t p.Name pw.Index = Except.ok panes → w.Panes = panes))
              wparsed r.WindowDetails)) parsed result := by
  refine ⟨(Split (TrimSpace text.data) '\n').filterMap parseSessionLine,
    ((Split (TrimSpace text.data) '\n').filterMap parseSessionLine).map (enrichSession t),
    rfl, ?_, ?_⟩
  · unfold ListSessions
    rw [h]
    rfl
  · rw [List.forall₂_map_right_iff, List.forall₂_same]
    intro p hp
    have hwd : p.WindowDetails = [] := parseSessions_windowDetails text _ rfl p hp
    refine ⟨?_, ?_, ?_, ?_, ?_, ?_⟩
    · unfold enrichSession; split <;> rfl
    · unfold enrichSession; split <;> rfl
    · unfold enrichSession; split <;> rfl
    · unfold enrichSession; split <;> rfl
    · intro msg hmsg
      unfold enrichSession
      rw [listWindows_of_err t p.Name msg hmsg]
      exact hwd
    · intro wtext hw
      obtain ⟨wparsed, hparse, hlist⟩ := listWindows_of_output t p.Name wtext hw
      refine ⟨wparsed, hparse, ?_⟩
      unfold enrichSession
      rw [hlist]
      simp only
      rw [List.forall₂_map_right_iff, List.forall₂_same]
      intro pw hpw
      have hpn : pw.Panes = [] := parseWindows_panes wtext wparsed hparse pw hpw
      refine ⟨?_, ?_, ?_, ?_, ?_⟩
      · unfold enrichWindow; split <;> rfl
      · unfold enrichWindow; split <;> rfl
      · unfold enrichWindow; split <;> rfl
      · intro e he
        unfold enrichWindow
        rw [he]
        exact hpn
      · intro panes hpanes
        unfold enrichWindow
        rw [hpanes]

/-- Instance of C17: two sessions are listed; the windows of "dev" are listed
with one pane, the window listing of "work" fails; both sessions are
returned. -/
theorem listSessions_best_effort_witness :
    ∃ result,
      ListSessions
        { sessions := CmdResult.output "dev\t1\t1\t5\nwork\t2\t0\t6\n",
          windows := fun name =>
            if name = "dev" then CmdResult.output "0\tzsh\t1\t1\n"
            else CmdResult.exitError 1 "exit status 1",
          panes := fun target =>
            if target = "dev:0" then CmdResult.output "0\tvim\t1\ttitle\n"
            else CmdResult.otherError "no such window" } = Except.ok result ∧
      result.length = 2 := by
  obtain ⟨parsed, result, hp, hl, hf⟩ := listSessions_best_effort
    { sessions := CmdResult.output "dev\t1\t1\t5\nwork\t2\t0\t6\n",
      windows := fun name =>
        if name = "dev" then CmdResult.output "0\tzsh\t1\t1\n"
        else CmdResult.exitError 1 "exit status 1",
      panes := fun target =>
        if target = "dev:0" then CmdResult.output "0\tvim\t1\ttitle\n"
        else CmdResult.otherError "no such window" }
    "dev\t1\t1\t5\nwork\t2\t0\t6\n" rfl
  refine ⟨result, hl, ?_⟩
  have h2 : ParseSessions "dev\t1\t1\t5\nwork\t2\t0\t6\n" =
      Except.ok [⟨"dev", 1, [], true, timeUnix 5 0⟩, ⟨"work", 2, [], false, timeUnix 6 0⟩] := rfl
  have h3 := Except.ok.inj (hp.symm.trans h2)
  rw [← hf.length_eq, h3]
  rfl

/-! ## The authentication middleware -/

theorem splitN_two (s : List Char) (sep : Char) :
    SplitN s sep 2 =
      match cutFirst sep s with
      | none => [s]
      | some (pre, post) => [pre, post] := by
  unfold SplitN
  cases cutFirst sep s with
  | none => rfl
  | some p => rfl

theorem equalFold_iff (s t : List Char) :
    EqualFold s t = true ↔ s.map Char.toLower = t.map Char.toLower := by
  induction s generalizing t with
  | nil =>
    cases t with
    | nil => simp [EqualFold]
    | cons d t => simp [EqualFold]
  | cons c s ih =>
    cases t with
    | nil => simp [EqualFold]
    | cons d t => simp [EqualFold, ih]

theorem middleware_outcome_cases (a : OIDCAuth) (authHeader : String) :
    (∃ sub email, Middleware a authHeader = AuthOutcome.next sub email) ∨
      ∃ msg, Middleware a authHeader =
        AuthOutcome.rejected { status := 401, error := some msg } := by
  unfold Middleware writeAuthError
  split
  · exact Or.inr ⟨_, rfl⟩
  · split
    · split
      · exact Or.inr ⟨_, rfl⟩
      · split
        · exact Or.inr ⟨_, rfl⟩
        · split
          · exact Or.inr ⟨_, rfl⟩
          · split
            · exact Or.inr ⟨_, rfl⟩
            · exact Or.inl ⟨_, _, rfl⟩
    · exact Or.inr ⟨_, rfl⟩

theorem middleware_next_of_parts (a : OIDCAuth) (authHeader : String) (scheme token : List Char)
    (hdata : authHeader.data = scheme ++ ' ' :: token) (hsp : ' ' ∉ scheme) :
    Middleware a authHeader =
      if !EqualFold scheme "Bearer".data then
        writeAuthError "invalid authorization header format"
      else
        match a.verify (String.mk token) with
        | Except.error e => writeAuthError ("invalid token: " ++ e)
        | Except.ok idToken =>
          match idToken.claims with
          | Except.error e => writeAuthError ("failed to parse claims: " ++ e)
          | Except.ok claims =>
            if !audienceAccepted a.acceptedClientIDs claims.Aud then
              writeAuthError "token audience not accepted"
            else AuthOutcome.next claims.Sub claims.Email := by
  have hne : ¬ authHeader = "" := by
    intro h
    rw [h] at hdata
    simp at hdata
  unfold Middleware
  rw [if_neg hne, splitN_two, hdata, cutFirst_append ' ' scheme token hsp]

/-- C18: the wrapped handler is invoked exactly when the Authorization header
has the form scheme, space, token with the scheme equal to "Bearer" ignoring
case, the verifier accepts the token, its claims parse and its audience is
accepted; the handler then sees the subject and email of the claims.  In
every other case the response is 401 with an error message and the wrapped
handler is not invoked. -/
theorem middleware_gate (a : OIDCAuth) (authHeader : String) :
    (∀ sub email, Middleware a authHeader = AuthOutcome.next sub email ↔
        ∃ scheme token idToken claims,
          authHeader.data = scheme ++ ' ' :: token ∧ ' ' ∉ scheme ∧
          scheme.map Char.toLower = "bearer".data ∧
          a.verify (String.mk token) = Except.ok idToken ∧
          idToken.claims = Except.ok claims ∧
          audienceAccepted a.acceptedClientIDs claims.Aud = true ∧
          sub = claims.Sub ∧ email = claims.Email) ∧
      ((∃ sub email, Middleware a authHeader = AuthOutcome.next sub email) ∨
        ∃ msg, Middleware a authHeader =
          AuthOutcome.rejected { status := 401, error := some msg }) := by
  refine ⟨fun sub email => ⟨fun h => ?_, ?_⟩, middleware_outcome_cases a authHeader⟩
  · by_cases hne : authHeader = ""
    · simp [Middleware, hne, writeAuthError] at h
    · cases hcut : cutFirst ' ' authHeader.data with
      | none =>
        simp [Middleware, hne, splitN_two, hcut, writeAuthError] at h
      | some p =>
        obtain ⟨scheme, token⟩ := p
        obtain ⟨hdata, hsp⟩ := cutFirst_some_spec ' ' _ scheme token hcut
        rw [middleware_next_of_parts a authHeader scheme token hdata hsp] at h
        by_cases hfold : EqualFold scheme "Bearer".data = true
        · simp only [hfold, Bool.not_true, Bool.false_eq_true, if_false] at h
          cases hv : a.verify (String.mk token) with
          | error e => simp [hv, writeAuthError] at h
          | ok idToken =>
            simp only [hv] at h
            cases hc : idToken.claims with
            | error e => simp [hc, writeAuthError] at h
            | ok claims =>
              simp only [hc] at h
              by_cases haud : audienceAccepted a.acceptedClientIDs claims.Aud = true
              · simp only [haud, Bool.not_true, Bool.false_eq_true, if_false,
                  AuthOutcome.next.injEq] at h
                refine ⟨scheme, token, idToken, claims, hdata, hsp, ?_, hv, hc, haud,
                  h.1.symm, h.2.symm⟩
                exact (equalFold_iff _ _).1 hfold
              · simp [haud, writeAuthError] at h
        · simp [hfold, writeAuthError] at h
  · rintro ⟨scheme, token, idToken, claims, hdata, hsp, hfold, hv, hc, haud, rfl, rfl⟩
    rw [middleware_next_of_parts a authHeader scheme token hdata hsp]
    have hf : EqualFold scheme "Bearer".data = true := (equalFold_iff _ _).2 hfold
    simp [hf, hv, hc, haud]

/-- Instance of C18: with a verifier that accepts only "good", the header
"bearer good" reaches the handler and "Token good" is answered 401. -/
theorem middleware_gate_witness :
    Middleware
        { verify := fun tok =>
            if tok = "good" then
              Except.ok { claims := Except.ok ⟨"user-1", "u@example.com", ["client1"]⟩ }
            else Except.error "bad token",
          acceptedClientIDs := ["client1"] } "bearer good" =
        AuthOutcome.next "user-1" "u@example.com" ∧
      Middleware
        { verify := fun tok =>
            if tok = "good" then
              Except.ok { claims := Except.ok ⟨"user-1", "u@example.com", ["client1"]⟩ }
            else Except.error "bad token",
          acceptedClientIDs := ["client1"] } "Token good" =
        AuthOutcome.rejected
          { status := 401, error := some "invalid authorization header format" } :=
  ⟨((middleware_gate _ "bearer good").1 "user-1" "u@example.com").2
      ⟨"bearer".data, "good".data, { claims := Except.ok ⟨"user-1", "u@example.com", ["client1"]⟩ },
        ⟨"user-1", "u@example.com", ["client1"]⟩, rfl, by decide, by decide, rfl, rfl, rfl, rfl,
        rfl⟩,
    rfl⟩

/-! ## Records and non-blank lines -/

theorem trimSpace_cons_space (c : Char) (h : List Char) (hc : isSpace c = true) :
    TrimSpace (c :: h) = TrimSpace h := by
  unfold TrimSpace
  simp [List.dropWhile, hc]

theorem trimSpace_append_space (c : Char) (h : List Char) (hc : isSpace c = true) :
    TrimSpace (h ++ [c]) = TrimSpace h := by
  induction h with
  | nil =>
    unfold TrimSpace
    simp [List.dropWhile, hc]
  | cons x h ih =>
    by_cases hx : isSpace x = true
    · rw [List.cons_append, trimSpace_cons_space x _ hx, trimSpace_cons_space x _ hx, ih]
    · unfold TrimSpace
      have hx2 : isSpace x = false := by simpa using hx
      simp [List.dropWhile, hx2, hc]

theorem isBlank_cons_space (c : Char) (h : List Char) (hc : isSpace c = true) :
    isBlank (c :: h) = isBlank h := by
  simp [isBlank, hc]

theorem isBlank_append_space (c : Char) (h : List Char) (hc : isSpace c = true) :
    isBlank (h ++ [c]) = isBlank h := by
  simp [isBlank, hc]

theorem nonBlank_trim_cons (l : List Char) (ls : List (List Char)) :
    ((l :: ls).filter (fun x => !isBlank x)).map TrimSpace =
      (if isBlank l then [] else [TrimSpace l]) ++
        (ls.filter (fun x => !isBlank x)).map TrimSpace := by
  by_cases h : isBlank l = true
  · simp [List.filter_cons, h]
  · have h2 : isBlank l = false := by simpa using h
    simp [List.filter_cons, h2]

theorem splitAux_cons_sep (sep : Char) (cs : List Char) :
    splitAux sep (sep :: cs) = ([], (splitAux sep cs).1 :: (splitAux sep cs).2) := by
  simp [splitAux]

theorem splitAux_cons_ne (sep c : Char) (cs : List Char) (h : c ≠ sep) :
    splitAux sep (c :: cs) = (c :: (splitAux sep cs).1, (splitAux sep cs).2) := by
  simp [splitAux, h]

theorem nonBlank_trim_cons_space (c : Char) (t : List Char) (hc : isSpace c = true) :
    (nonBlankLines (c :: t)).map TrimSpace = (nonBlankLines t).map TrimSpace := by
  unfold nonBlankLines Split
  by_cases hn : c = '\n'
  · rw [hn, splitAux_cons_sep, nonBlank_trim_cons]
    simp [isBlank]
  · rw [splitAux_cons_ne '\n' c t hn, nonBlank_trim_cons, nonBlank_trim_cons,
      isBlank_cons_space c _ hc, trimSpace_cons_space c _ hc]

theorem splitAux_append_space (c : Char) (t : List Char) :
    ((splitAux '\n' (t ++ [c])).1 = (splitAux '\n' t).1 ∨
        (splitAux '\n' (t ++ [c])).1 = (splitAux '\n' t).1 ++ [c]) ∧
      (isSpace c = true →
        ((splitAux '\n' (t ++ [c])).2.filter (fun x => !isBlank x)).map TrimSpace =
          ((splitAux '\n' t).2.filter (fun x => !isBlank x)).map TrimSpace) := by
  induction t with
  | nil =>
    by_cases hn : c = '\n'
    · rw [List.nil_append, hn, splitAux_cons_sep]
      exact ⟨Or.inl rfl, fun _ => by simp [splitAux, isBlank]⟩
    · rw [List.nil_append, splitAux_cons_ne '\n' c [] hn]
      exact ⟨Or.inr rfl, fun _ => rfl⟩
  | cons x t ih =>
    obtain ⟨h1, h2⟩ := ih
    by_cases hx : x = '\n'
    · rw [List.cons_append, hx, splitAux_cons_sep, splitAux_cons_sep]
      refine ⟨Or.inl rfl, fun hc => ?_⟩
      simp only
      rw [nonBlank_trim_cons, nonBlank_trim_cons, h2 hc]
      rcases h1 with h1 | h1
      · rw [h1]
      · rw [h1, isBlank_append_space c _ hc, trimSpace_append_space c _ hc]
    · rw [List.cons_append, splitAux_cons_ne '\n' x _ hx, splitAux_cons_ne '\n' x _ hx]
      refine ⟨?_, h2⟩
      rcases h1 with h1 | h1
      · exact Or.inl (by simp only [h1])
      · exact Or.inr (by simp only [h1, List.cons_append])

theorem nonBlank_trim_append_space (c : Char) (t : List Char) (hc : isSpace c = true) :
    (nonBlankLines (t ++ [c])).map TrimSpace = (nonBlankLines t).map TrimSpace := by
  unfold nonBlankLines Split
  obtain ⟨h1, h2⟩ := splitAux_append_space c t
  rw [nonBlank_trim_cons, nonBlank_trim_cons, h2 hc]
  rcases h1 with h1 | h1
  · rw [h1]
  · rw [h1, isBlank_append_space c _ hc, trimSpace_append_space c _ hc]

theorem nonBlank_trim_dropWhile (t : List Char) :
    (nonBlankLines (t.dropWhile isSpace)).map TrimSpace = (nonBlankLines t).map TrimSpace := by
  induction t with
  | nil => rfl
  | cons c t ih =>
    by_cases hc : isSpace c = true
    · rw [List.dropWhile_cons_of_pos hc, ih, nonBlank_trim_cons_space c t hc]
    · rw [List.dropWhile_cons_of_neg hc]

theorem nonBlank_trim_rdropWhile (r : List Char) :
    (nonBlankLines (r.dropWhile isSpace).reverse).map TrimSpace =
      (nonBlankLines r.reverse).map TrimSpace := by
  induction r with
  | nil => rfl
  | cons c r ih =>
    by_cases hc : isSpace c = true
    · rw [List.dropWhile_cons_of_pos hc, ih, List.reverse_cons,
        nonBlank_trim_append_space c _ hc]
    · rw [List.dropWhile_cons_of_neg hc]

/-- The non-blank lines of the trimmed text are the non-blank lines of the
text itself, up to white space at the ends of a line. -/
theorem nonBlankLines_trimSpace (t : List Char) :
    (nonBlankLines (TrimSpace t)).map TrimSpace = (nonBlankLines t).map TrimSpace := by
  have h : TrimSpace t = ((t.dropWhile isSpace).reverse.dropWhile isSpace).reverse := rfl
  rw [h, nonBlank_trim_rdropWhile, List.reverse_reverse, nonBlank_trim_dropWhile]

theorem parseInt_some_has_digit (s : List Char) (v : Int) (h : ParseInt s = some v) :
    ∃ c ∈ s, isDigit c = true := by
  cases s with
  | nil => simp [ParseInt] at h
  | cons c rest =>
    by_cases hsign : c = '+' ∨ c = '-'
    · simp only [ParseInt, if_pos hsign] at h
      by_cases hb : rest = []
      · simp [hb] at h
      · rw [if_neg hb] at h
        cases hun : parseDigits rest 0 with
        | none => simp [hun] at h
        | some un =>
          have hd := parseDigits_some_digits _ _ _ hun
          cases rest with
          | nil => exact absurd rfl hb
          | cons d ds =>
            exact ⟨d, List.mem_cons_of_mem _ (List.mem_cons_self _ _),
              hd d (List.mem_cons_self _ _)⟩
    · simp only [ParseInt, if_neg hsign] at h
      rw [if_neg (List.cons_ne_nil c rest)] at h
      cases hun : parseDigits (c :: rest) 0 with
      | none => simp [hun] at h
      | some un =>
        have hd := parseDigits_some_digits _ _ _ hun
        exact ⟨c, List.mem_cons_self _ _, hd c (List.mem_cons_self _ _)⟩

theorem not_blank_of_digit (line : List Char) (c : Char) (hc : c ∈ line)
    (hd : isDigit c = true) : isBlank line = false := by
  unfold isBlank
  rw [List.all_eq_false]
  exact ⟨c, hc, by simp [isDigit_not_space c hd]⟩

theorem parseSessionLine_not_blank (line : List Char) (r : TmuxSession)
    (h : parseSessionLine line = some r) : isBlank line = false := by
  unfold parseSessionLine at h
  split at h
  · exact absurd h (by simp)
  · rcases splitN_four_cases line '\t' with ⟨hlen, _⟩ | ⟨a, b, c, rest, hs, _, hline, _, _, _⟩
    · split at h
      · rename_i heq
        rw [heq] at hlen
        simp at hlen
      · exact absurd h (by simp)
    · rw [hs] at h
      simp only at h
      cases hat : Atoi b with
      | none => simp [hat] at h
      | some v =>
        obtain ⟨d, hd, hdig⟩ := parseInt_some_has_digit b v hat
        refine not_blank_of_digit line d ?_ hdig
        rw [hline]
        simp [hd]

theorem parseWindowLine_not_blank (line : List Char) (r : TmuxWindow)
    (h : parseWindowLine line = some r) : isBlank line = false := by
  unfold parseWindowLine at h
  split at h
  · exact absurd h (by simp)
  · rcases splitN_four_cases line '\t' with ⟨hlen, _⟩ | ⟨a, b, c, rest, hs, _, hline, _, _, _⟩
    · split at h
      · rename_i heq
        rw [heq] at hlen
        simp at hlen
      · exact absurd h (by simp)
    · rw [hs] at h
      simp only at h
      cases hat : Atoi a with
      | none => simp [hat] at h
      | some v =>
        obtain ⟨d, hd, hdig⟩ := parseInt_some_has_digit a v hat
        refine not_blank_of_digit line d ?_ hdig
        rw [hline]
        simp [hd]

theorem parsePaneLine_not_blank (line : List Char) (r : TmuxPane)
    (h : parsePaneLine line = some r) : isBlank line = false := by
  unfold parsePaneLine at h
  split at h
  · exact absurd h (by simp)
  · rcases splitN_four_cases line '\t' with ⟨hlen, _⟩ | ⟨a, b, c, rest, hs, _, hline, _, _, _⟩
    · split at h
      · rename_i heq
        rw [heq] at hlen
        simp at hlen
      · exact absurd h (by simp)
    · rw [hs] at h
      simp only at h
      cases hat : Atoi a with
      | none => simp [hat] at h
      | some v =>
        obtain ⟨d, hd, hdig⟩ := parseInt_some_has_digit a v hat
        refine not_blank_of_digit line d ?_ hdig
        rw [hline]
        simp [hd]

theorem filterMap_follows {β : Type} (f : List Char → Option β)
    (hf : ∀ l r, f l = some r → isBlank l = false) (lines : List (List Char)) :
    ∃ sub, List.Sublist sub (lines.filter (fun l => !isBlank l)) ∧
      List.Forall₂ (fun l r => f l = some r) sub (lines.filterMap f) := by
  induction lines with
  | nil => exact ⟨[], List.Sublist.slnil, List.Forall₂.nil⟩
  | cons l ls ih =>
    obtain ⟨sub, hsub, hall⟩ := ih
    cases hl : f l with
    | none =>
      refine ⟨sub, ?_, ?_⟩
      · by_cases hb : isBlank l = true
        · simpa [List.filter_cons, hb] using hsub
        · have hb2 : isBlank l = false := by simpa using hb
          simpa [List.filter_cons, hb2] using List.Sublist.cons l hsub
      · simpa [List.filterMap_cons, hl] using hall
    | some r =>
      have hb := hf l r hl
      refine ⟨l :: sub, ?_, ?_⟩
      · simpa [List.filter_cons, hb] using List.Sublist.cons₂ l hsub
      · have hcons : List.Forall₂ (fun l r => f l = some r) (l :: sub)
            (r :: List.filterMap f ls) := List.Forall₂.cons hl hall
        simpa [List.filterMap_cons, hl] using hcons

theorem sublist_transfer {α γ : Type} (g : α → γ) (sub T : List α) (hsub : List.Sublist sub T) :
    ∀ R : List α, T.map g = R.map g →
      ∃ sub2, List.Sublist sub2 R ∧ List.Forall₂ (fun s r => g s = g r) sub sub2 := by
  induction hsub with
  | slnil =>
    intro R hR
    exact ⟨[], List.nil_sublist R, List.Forall₂.nil⟩
  | cons a _ ih =>
    intro R hR
    cases R with
    | nil => simp at hR
    | cons b R2 =>
      simp only [List.map_cons, List.cons.injEq] at hR
      obtain ⟨sub2, h1, h2⟩ := ih R2 hR.2
      exact ⟨sub2, List.Sublist.cons b h1, h2⟩
  | cons₂ a _ ih =>
    intro R hR
    cases R with
    | nil => simp at hR
    | cons b R2 =>
      simp only [List.map_cons, List.cons.injEq] at hR
      obtain ⟨sub2, h1, h2⟩ := ih R2 hR.2
      exact ⟨b :: sub2, List.Sublist.cons₂ b h1, List.Forall₂.cons hR.1 h2⟩

theorem forall₂_chain {α β : Type} (g : α → α → Prop) (f : α → β → Prop) :
    ∀ (sub2 sub : List α) (recs : List β), List.Forall₂ g sub sub2 → List.Forall₂ f sub recs →
      List.Forall₂ (fun raw r => ∃ l, g l raw ∧ f l r) sub2 recs := by
  intro sub2 sub recs h1
  induction h1 generalizing recs with
  | nil =>
    intro h2
    cases h2
    exact List.Forall₂.nil
  | cons hab _ ih =>
    intro h2
    cases h2 with
    | cons hf ht => exact List.Forall₂.cons ⟨_, hab, hf⟩ (ih _ ht)

theorem records_follow_lines {β : Type} (f : List Char → Option β)
    (hf : ∀ l r, f l = some r → isBlank l = false) (text : List Char) :
    RecordsFollowLines f text ((Split (TrimSpace text) '\n').filterMap f) ∧
      ((Split (TrimSpace text) '\n').filterMap f).length ≤ (nonBlankLines text).length := by
  obtain ⟨sub, hsub, hall⟩ := filterMap_follows f hf (Split (TrimSpace text) '\n')
  obtain ⟨sub2, hsub2, hrel⟩ := sublist_transfer TrimSpace sub _ hsub (nonBlankLines text)
    (nonBlankLines_trimSpace text)
  have hfollow : RecordsFollowLines f text ((Split (TrimSpace text) '\n').filterMap f) :=
    ⟨sub2, hsub2, forall₂_chain (fun l raw => TrimSpace l = TrimSpace raw)
      (fun l r => f l = some r) sub2 sub _ hrel hall⟩
  refine ⟨hfollow, ?_⟩
  obtain ⟨s, hs, hr⟩ := hfollow
  rw [← hr.length_eq]
  exact hs.length_le

/-- C13: for every input text, the records returned by `ParseSessions`,
`ParseWindows` and `ParsePanes` correspond one to one, in the same relative
order, to a subsequence of the non-blank lines of the input, each record being
parsed from its line; so the number of records is at most the number of
non-blank input lines. -/
theorem records_follow_nonBlank_lines (output : String) :
    (∃ recs, ParseSessions output = Except.ok recs ∧
        RecordsFollowLines parseSessionLine output.data recs ∧
        recs.length ≤ (nonBlankLines output.data).length) ∧
      (∃ recs, ParseWindows output = Except.ok recs ∧
        RecordsFollowLines parseWindowLine output.data recs ∧
        recs.length ≤ (nonBlankLines output.data).length) ∧
      (∃ recs, ParsePanes output = Except.ok recs ∧
        RecordsFollowLines parsePaneLine output.data recs ∧
        recs.length ≤ (nonBlankLines output.data).length) := by
  refine ⟨⟨_, rfl, ?_⟩, ⟨_, rfl, ?_⟩, ⟨_, rfl, ?_⟩⟩
  · exact records_follow_lines parseSessionLine parseSessionLine_not_blank output.data
  · exact records_follow_lines parseWindowLine parseWindowLine_not_blank output.data
  · exact records_follow_lines parsePaneLine parsePaneLine_not_blank output.data

/-! ## GetAll never returns the nil slice -/

theorem getAllLoop_ofList (cutoff : Time) (entries : List (String × Machine))
    (l : List Machine) :
    getAllLoop cutoff entries (Slice.ofList l) =
      Slice.ofList (l ++ (entries.filter (fun e => Time.After e.2.LastSeen cutoff)).map
        (fun e => copyMachine e.2)) := by
  induction entries generalizing l with
  | nil => simp [getAllLoop]
  | cons e rest ih =>
    by_cases h : Time.After e.2.LastSeen cutoff = true
    · simp only [getAllLoop, h, if_true, Slice.append, ih, List.filter_cons, List.map_cons,
        List.append_assoc, List.singleton_append]
    · simp only [getAllLoop, h, if_false, ih, List.filter_cons, Bool.false_eq_true]

theorem getAllSlice_eq (s : Store) (now : Time) :
    s.GetAllSlice now = Slice.ofList (s.GetAll now) := by
  unfold Store.GetAllSlice Slice.make Store.GetAll
  rw [getAllLoop_ofList]
  rfl

/-- C22: for every store state and time the slice `GetAll` returns is not nil:
it is a non-nil slice holding the machines that are live, so `GetSessions`
answers 200 with "machines" encoded as an array, never as null; the array is
empty for a store that never received a push and whenever no machine is
live. -/
theorem getAll_never_nil (s : Store) (now : Time) :
    s.GetAllSlice now ≠ Slice.nil ∧
      s.GetAllSlice now = Slice.ofList (s.GetAll now) ∧
      (GetSessions s now).status = 200 ∧
      jsonShape (GetSessions s now).machines ≠ JSONShape.null ∧
      jsonShape (GetSessions s now).machines = JSONShape.array (s.GetAll now).length ∧
      (s.machines = [] → jsonShape (GetSessions s now).machines = JSONShape.array 0) ∧
      (s.GetAll now = [] → jsonShape (GetSessions s now).machines = JSONShape.array 0) := by
  have h := getAllSlice_eq s now
  have hj : jsonShape (GetSessions s now).machines = JSONShape.array (s.GetAll now).length := by
    unfold GetSessions
    simp only [h, jsonShape]
  refine ⟨?_, h, rfl, ?_, hj, ?_, ?_⟩
  · rw [h]
    exact fun e => Slice.noConfusion e
  · rw [hj]
    exact fun e => JSONShape.noConfusion e
  · intro he
    rw [hj]
    simp [Store.GetAll, he]
  · intro he
    rw [hj, he]
    rfl

/-- Instance of C22: a store that never received a push, and a store whose
only entry has expired. -/
theorem getAll_never_nil_witness :
    jsonShape (GetSessions (NewStore 60) 5).machines = JSONShape.array 0 ∧
      jsonShape (GetSessions
        { machines := [("a", ⟨"a", "h", "u", [], 0⟩)], ttl := 5 } 100).machines =
        JSONShape.array 0 :=
  ⟨(getAll_never_nil (NewStore 60) 5).2.2.2.2.2.1 rfl,
    (getAll_never_nil { machines := [("a", ⟨"a", "h", "u", [], 0⟩)], ttl := 5 } 100).2.2.2.2.2.2
      (by decide)⟩

/-! ## The sign of parsed indices -/

theorem parseInt_nonneg_of_head (s : List Char) (v : Int) (h : ParseInt s = some v)
    (hhead : s.head? ≠ some '-') : 0 ≤ v := by
  cases s with
  | nil => simp [ParseInt] at h
  | cons c rest =>
    have hminus : ¬ c = '-' := by
      intro hc
      apply hhead
      rw [hc]
      rfl
    have hval : ∀ body : List Char,
        (match parseDigits body 0 with
          | none => none
          | some un =>
            if !decide (c = '-') && decide (9223372036854775808 ≤ un) then none
            else if decide (c = '-') && decide (9223372036854775808 < un) then none
            else some (if decide (c = '-') then -(un : Int) else (un : Int))) = some v →
        0 ≤ v := by
      intro body hb
      cases hun : parseDigits body 0 with
      | none => simp [hun] at hb
      | some un =>
        simp only [hun, hminus, decide_False, Bool.not_false, Bool.true_and, Bool.false_and,
          Bool.false_eq_true, if_false] at hb
        split at hb
        · exact absurd hb (by simp)
        · simp only [Option.some.injEq] at hb
          rw [← hb]
          exact Int.ofNat_nonneg un
    by_cases hsign : c = '+' ∨ c = '-'
    · simp only [ParseInt, if_pos hsign] at h
      by_cases hb : rest = []
      · simp [hb] at h
      · rw [if_neg hb] at h
        exact hval rest h
    · simp only [ParseInt, if_neg hsign] at h
      rw [if_neg (List.cons_ne_nil c rest)] at h
      exact hval (c :: rest) h

theorem atoi_field_head (line a r : List Char) (v : Int) (hline : line = a ++ '\t' :: r)
    (hat : Atoi a = some v) (hhead : line.head? ≠ some '-') : 0 ≤ v := by
  apply parseInt_nonneg_of_head a v hat
  cases a with
  | nil => simp [Atoi, ParseInt] at hat
  | cons c cs =>
    rw [hline] at hhead
    exact hhead

theorem parseWindowLine_index_nonneg (line : List Char) (w : TmuxWindow)
    (h : parseWindowLine line = some w) (hhead : line.head? ≠ some '-') : 0 ≤ w.Index := by
  unfold parseWindowLine at h
  split at h
  · exact absurd h (by simp)
  · rcases splitN_four_cases line '\t' with ⟨hlen, _⟩ | ⟨a, b, c, rest, hs, _, hline, _, _, _⟩
    · split at h
      · rename_i heq
        rw [heq] at hlen
        simp at hlen
      · exact absurd h (by simp)
    · rw [hs] at h
      simp only at h
      cases hat : Atoi a with
      | none => simp [hat] at h
      | some v =>
        simp only [hat, Option.some.injEq] at h
        rw [← h]
        exact atoi_field_head line a _ v hline hat hhead

theorem parsePaneLine_index_nonneg (line : List Char) (p : TmuxPane)
    (h : parsePaneLine line = some p) (hhead : line.head? ≠ some '-') : 0 ≤ p.Index := by
  unfold parsePaneLine at h
  split at h
  · exact absurd h (by simp)
  · rcases splitN_four_cases line '\t' with ⟨hlen, _⟩ | ⟨a, b, c, rest, hs, _, hline, _, _, _⟩
    · split at h
      · rename_i heq
        rw [heq] at hlen
        simp at hlen
      · exact absurd h (by simp)
    · rw [hs] at h
      simp only at h
      cases hat : Atoi a with
      | none => simp [hat] at h
      | some v =>
        simp only [hat, Option.some.injEq] at h
        rw [← h]
        exact atoi_field_head line a _ v hline hat hhead

/-- C24 (as amended): for every input text in which no line of the trimmed
input begins with a minus sign, every window returned by `ParseWindows` and
every pane returned by `ParsePanes` has a non-negative Index. -/
theorem index_nonneg_without_minus (output : String)
    (h : ∀ line ∈ Split (TrimSpace output.data) '\n', line.head? ≠ some '-') :
    (∀ windows, ParseWindows output = Except.ok windows → ∀ w ∈ windows, 0 ≤ w.Index) ∧
      (∀ panes, ParsePanes output = Except.ok panes → ∀ p ∈ panes, 0 ≤ p.Index) := by
  constructor
  · intro windows hw w hmem
    unfold ParseWindows at hw
    simp only [Except.ok.injEq] at hw
    rw [← hw] at hmem
    obtain ⟨line, hl, hparse⟩ := List.mem_filterMap.1 hmem
    exact parseWindowLine_index_nonneg line w hparse (h line hl)
  · intro panes hp p hmem
    unfold ParsePanes at hp
    simp only [Except.ok.injEq] at hp
    rw [← hp] at hmem
    obtain ⟨line, hl, hparse⟩ := List.mem_filterMap.1 hmem
    exact parsePaneLine_index_nonneg line p hparse (h line hl)

/-- Instance of C24 (as amended): two window lines with indices 0 and 1. -/
theorem index_nonneg_without_minus_witness :
    ParseWindows "0\tzsh\t1\t1\n1\tvim\t0\t2\n" =
        Except.ok [⟨0, "zsh", true, []⟩, ⟨1, "vim", false, []⟩] ∧
      (0 : Int) ≤ TmuxWindow.Index ⟨0, "zsh", true, []⟩ ∧
      (0 : Int) ≤ TmuxWindow.Index ⟨1, "vim", false, []⟩ :=
  ⟨rfl,
    (index_nonneg_without_minus "0\tzsh\t1\t1\n1\tvim\t0\t2\n" (by decide)).1
      [⟨0, "zsh", true, []⟩, ⟨1, "vim", false, []⟩] rfl _ (List.mem_cons_self _ _),
    (index_nonneg_without_minus "0\tzsh\t1\t1\n1\tvim\t0\t2\n" (by decide)).1
      [⟨0, "zsh", true, []⟩, ⟨1, "vim", false, []⟩] rfl _
      (List.mem_cons_of_mem _ (List.mem_cons_self _ _))⟩

/-- C24 (as stated) fails: a line whose first column is "-1" yields a window,
and a pane, with Index -1. -/
theorem negative_index_accepted :
    ParseWindows "-1\tname\t1\t1" =
        Except.ok [{ Index := -1, Name := "name", Active := true, Panes := [] }] ∧
      ParsePanes "-1\tzsh\t1\ttitle" =
        Except.ok [{ Index := -1, CurrentCommand := "zsh", Active := true, Title := "title" }] ∧
      ¬ (0 : Int) ≤ -1 :=
  ⟨rfl, rfl, by decide⟩

/-! ## The sweep interval -/

theorem tdiv_two_pos_iff (a : Int) : 0 < Int.tdiv a 2 ↔ 2 ≤ a := by
  rcases Int.lt_or_le a 0 with hneg | hpos
  · have h1 : (0 : Int) ≤ (-a).tdiv 2 := Int.tdiv_nonneg (by omega) (by decide)
    have h2 : a.tdiv 2 = -((-a).tdiv 2) := by rw [Int.neg_tdiv, Int.neg_neg]
    constructor <;> intro h <;> omega
  · rw [Int.tdiv_eq_ediv hpos (by decide)]
    constructor <;> intro h <;> omega

/-- C25: the interval `ttl/2` is strictly positive exactly when the ttl is at
least two nanoseconds.  A `SESSION_TTL` that parses to one nanosecond or to
zero is accepted by `main`, gives the interval 0, and creating the sweep
ticker panics. -/
theorem sweep_interval_positive_iff (parseDuration : String → Except String Duration)
    (h1 : parseDuration "1ns" = Except.ok 1) (h0 : parseDuration "0s" = Except.ok 0) :
    (∀ ttl : Duration, 0 < cleanupInterval ttl ↔ 2 ≤ ttl) ∧
      cleanupInterval 1 = 0 ∧ cleanupInterval 0 = 0 ∧
      serverStartup parseDuration "1ns" = Startup.crashed ∧
      serverStartup parseDuration "0s" = Startup.crashed := by
  refine ⟨?_, by decide, by decide, ?_, ?_⟩
  · intro ttl
    exact tdiv_two_pos_iff ttl
  · have hs : (if ("1ns" : String) = "" then "60s" else "1ns") = "1ns" := by decide
    unfold serverStartup
    simp only [hs, h1]
    rfl
  · have hs : (if ("0s" : String) = "" then "60s" else "0s") = "0s" := by decide
    unfold serverStartup
    simp only [hs, h0]
    rfl

/-- Instance of C25 with a parser that knows the three strings "1ns", "0s" and
"60s". -/
theorem sweep_interval_positive_iff_witness :
    serverStartup (fun str =>
        if str = "1ns" then Except.ok 1
        else if str = "0s" then Except.ok 0
        else if str = "60s" then Except.ok 60000000000
        else Except.error "invalid duration") "1ns" = Startup.crashed ∧
      serverStartup (fun str =>
        if str = "1ns" then Except.ok 1
        else if str = "0s" then Except.ok 0
        else if str = "60s" then Except.ok 60000000000
        else Except.error "invalid duration") "" =
        Startup.sweeping 60000000000 30000000000 :=
  ⟨(sweep_interval_positive_iff _ rfl rfl).2.2.2.1, by decide⟩

/-! ## A single pane line -/

theorem isDecimal_head (s : List Char) (v : Int) (h : IsDecimal s v) :
    ∃ c cs, s = c :: cs ∧ isSpace c = false := by
  have hchars := isDecimal_chars s v h
  have hne : s ≠ [] := by
    cases h with
    | unsigned _ hne _ => exact hne
    | plus ds _ _ => exact List.cons_ne_nil _ _
    | minus ds _ _ => exact List.cons_ne_nil _ _
  cases s with
  | nil => exact absurd rfl hne
  | cons c cs =>
    refine ⟨c, cs, rfl, ?_⟩
    rcases hchars c (List.mem_cons_self _ _) with hd | rfl | rfl
    · exact isDigit_not_space c hd
    · decide
    · decide

theorem paneLine_text_ne_nil (l : PaneLine) : l.text ≠ [] := by
  unfold PaneLine.text
  simp

theorem splitN_paneLine (l : PaneLine) (h : l.WellFormed) :
    SplitN l.text '\t' 4 = [l.index, l.command, l.flag, l.title] := by
  obtain ⟨h1, h2, _, h4, _⟩ := h
  have h0 := isDecimal_no_tab _ _ h1
  unfold PaneLine.text
  simp [SplitN, cutFirst_append, h0, h2, h4]

theorem parsePaneLine_text (l : PaneLine) (h : l.WellFormed)
    (hlo : minDuration ≤ l.value) (hhi : l.value ≤ maxDuration) :
    parsePaneLine l.text = some l.pane := by
  unfold parsePaneLine
  rw [if_neg (paneLine_text_ne_nil l), splitN_paneLine l h]
  simp only [Atoi, parseInt_of_isDecimal _ _ h.1 hlo hhi]
  rfl

/-- C21 (as amended): for every pane line of the form index TAB command TAB
flag TAB title, where index is a decimal integer in the range of `int`,
command, flag and title contain no tab or newline, and the title is not empty
and does not end with white space, `ParsePanes` applied to that line alone
returns exactly one pane with Index equal to index, CurrentCommand equal to
command, Active true exactly when flag is "1", and Title equal to title. -/
theorem parsePanes_single_line (l : PaneLine) (hwf : l.WellFormed)
    (hlo : minDuration ≤ l.value) (hhi : l.value ≤ maxDuration)
    (htitle : ∃ d, l.title.getLast? = some d ∧ isSpace d = false) :
    ParsePanes (String.mk l.text) = Except.ok [l.pane] := by
  have htrim : TrimSpace l.text = l.text := by
    apply trimSpace_eq_self
    · intro c hc
      obtain ⟨c0, cs, hidx, hsp⟩ := isDecimal_head _ _ hwf.1
      unfold PaneLine.text at hc
      rw [hidx] at hc
      simp only [List.cons_append, List.head?_cons, Option.some.injEq] at hc
      rw [← hc]
      exact hsp
    · intro d hd
      obtain ⟨d0, hd0, hsp⟩ := htitle
      have hne : l.title ≠ [] := by
        intro hnil
        rw [hnil] at hd0
        simp at hd0
      have htext : l.text =
          (l.index ++ '\t' :: (l.command ++ '\t' :: (l.flag ++ ['\t']))) ++ l.title := by
        unfold PaneLine.text
        simp
      rw [htext, List.getLast?_append_of_ne_nil _ hne, hd0] at hd
      simp only [Option.some.injEq] at hd
      rw [← hd]
      exact hsp
  have hnl : '\n' ∉ l.text := by
    obtain ⟨h1, _, h3, _, h5, _, h7⟩ := hwf
    have h0 := isDecimal_no_newline _ _ h1
    unfold PaneLine.text
    simp only [List.mem_append, List.mem_cons, not_or]
    exact ⟨h0, by decide, h3, by decide, h5, by decide, h7⟩
  unfold ParsePanes
  simp only [htrim, split_of_not_mem '\n' l.text hnl, List.filterMap_cons,
    parsePaneLine_text l hwf hlo hhi, List.filterMap_nil]

/-- Instance of C21 (as amended): the pane line "0", "vim", "1", "editor". -/
theorem parsePanes_single_line_witness :
    ParsePanes (String.mk (PaneLine.text
        ⟨"0".data, "vim".data, "1".data, "editor".data, 0⟩)) =
      Except.ok [{ Index := 0, CurrentCommand := "vim", Active := true, Title := "editor" }] :=
  parsePanes_single_line ⟨"0".data, "vim".data, "1".data, "editor".data, 0⟩
    ⟨IsDecimal.unsigned "0".data (by decide) (by decide), by decide, by decide, by decide,
      by decide, by decide, by decide⟩
    (by decide) (by decide) ⟨'r', by decide, by decide⟩

/-- C21 (as stated) fails.  A line with an empty title is of the stated form
and yields no pane: trimming removes its last tab and leaves three fields.  A
title ending with a space is returned without it.  A decimal index outside
the range of `int` yields no pane. -/
theorem parsePanes_single_line_fails :
    PaneLine.WellFormed ⟨"0".data, "zsh".data, "1".data, [], 0⟩ ∧
      ParsePanes (String.mk (PaneLine.text ⟨"0".data, "zsh".data, "1".data, [], 0⟩)) =
        Except.ok [] ∧
      PaneLine.WellFormed ⟨"0".data, "zsh".data, "1".data, "t ".data, 0⟩ ∧
      ParsePanes (String.mk (PaneLine.text ⟨"0".data, "zsh".data, "1".data, "t ".data, 0⟩)) =
        Except.ok [{ Index := 0, CurrentCommand := "zsh", Active := true, Title := "t" }] ∧
      PaneLine.WellFormed
        ⟨"9223372036854775808".data, "zsh".data, "1".data, "t".data, 9223372036854775808⟩ ∧
      ParsePanes (String.mk (PaneLine.text
        ⟨"9223372036854775808".data, "zsh".data, "1".data, "t".data, 9223372036854775808⟩)) =
        Except.ok [] := by
  refine ⟨?_, rfl, ?_, rfl, ?_, rfl⟩
  · exact ⟨IsDecimal.unsigned "0".data (by decide) (by decide), by decide, by decide,
      by decide, by decide, by decide, by decide⟩
  · exact ⟨IsDecimal.unsigned "0".data (by decide) (by decide), by decide, by decide,
      by decide, by decide, by decide, by decide⟩
  · exact ⟨IsDecimal.unsigned "9223372036854775808".data (by decide) (by decide), by decide,
      by decide, by decide, by decide, by decide, by decide⟩

/-! ## Deleting a skipped line: the general statement -/

theorem trimSpace_spaces_append (pre s : List Char) (hpre : ∀ c ∈ pre, isSpace c = true) :
    TrimSpace (pre ++ s) = TrimSpace s := by
  induction pre with
  | nil => rfl
  | cons c cs ih =>
    rw [List.cons_append, trimSpace_cons_space c _ (hpre c (List.mem_cons_self _ _))]
    exact ih (fun d hd => hpre d (List.mem_cons_of_mem _ hd))

theorem trimSpace_append_spaces (post s : List Char) (hpost : ∀ c ∈ post, isSpace c = true) :
    TrimSpace (s ++ post) = TrimSpace s := by
  induction post generalizing s with
  | nil => rw [List.append_nil]
  | cons c cs ih =>
    have h : s ++ c :: cs = (s ++ [c]) ++ cs := by simp
    rw [h, ih (s ++ [c]) (fun d hd => hpost d (List.mem_cons_of_mem _ hd)),
      trimSpace_append_space c s (hpost c (List.mem_cons_self _ _))]

/-- C4 (as amended): for every input text and every line of the trimmed input
that `ParseSessions` skips, if the trimmed input with that line deleted
neither begins nor ends with white space, then `ParseSessions` applied to it,
with any white space (such as the final newline) before and after it, returns
the same sessions as for the original text. -/
theorem skipped_line_deletion (text : List Char) (i : Nat) (line pre post : List Char)
    (hline : (Split (TrimSpace text) '\n')[i]? = some line)
    (hskip : parseSessionLine line = none)
    (hpre : ∀ c ∈ pre, isSpace c = true) (hpost : ∀ c ∈ post, isSpace c = true)
    (htrim : TrimSpace (joinLines ((Split (TrimSpace text) '\n').eraseIdx i)) =
      joinLines ((Split (TrimSpace text) '\n').eraseIdx i)) :
    ParseSessions
        (String.mk (pre ++ joinLines ((Split (TrimSpace text) '\n').eraseIdx i) ++ post)) =
      ParseSessions (String.mk text) := by
  have hpad : TrimSpace (pre ++ joinLines ((Split (TrimSpace text) '\n').eraseIdx i) ++ post) =
      joinLines ((Split (TrimSpace text) '\n').eraseIdx i) := by
    rw [trimSpace_append_spaces post _ hpost, trimSpace_spaces_append pre _ hpre, htrim]
  unfold ParseSessions
  simp only [hpad]
  congr 1
  by_cases hE : (Split (TrimSpace text) '\n').eraseIdx i = []
  · have hl : (Split (TrimSpace text) '\n').filterMap parseSessionLine =
        ((Split (TrimSpace text) '\n').eraseIdx i).filterMap parseSessionLine :=
      (filterMap_eraseIdx_of_none _ _ i line hline hskip).symm
    rw [hl, hE]
    rfl
  · have hnl : ∀ l ∈ (Split (TrimSpace text) '\n').eraseIdx i, '\n' ∉ l := fun l hl =>
      split_not_mem '\n' (TrimSpace text) l ((List.eraseIdx_sublist _ _).subset hl)
    rw [split_joinLines _ hE hnl, filterMap_eraseIdx_of_none _ _ i line hline hskip]

/-- Instance of C4 (as amended): the repository's mixed input, final newline
included, with the malformed middle line deleted and the final newline
kept. -/
theorem skipped_line_deletion_witness :
    ParseSessions "good\t2\t0\t1700000000\nalso_good\t1\t1\t1700001000\n" =
      ParseSessions "good\t2\t0\t1700000000\nbad\nalso_good\t1\t1\t1700001000\n" :=
  skipped_line_deletion "good\t2\t0\t1700000000\nbad\nalso_good\t1\t1\t1700001000\n".data 1
    "bad".data [] "\n".data (by decide) (by decide) (by decide) (by decide) (by decide)

/-! ## Store.cleanup at the minimum ttl -/

/-- C8 (as stated) fails at the minimum ttl: there `-ttl` wraps to itself, the
cutoff lies 2^63 nanoseconds before the sweep, and a record of age 3, which is
greater than ttl, is kept. -/
theorem cleanup_keeps_stale_at_min_ttl :
    minDuration < (3 : Int) - (Machine.LastSeen ⟨"a", "h", "u", [], 0⟩) ∧
      (Store.cleanup
        { machines := [("a", ⟨"a", "h", "u", [], 0⟩)], ttl := minDuration } 3).machines =
        [("a", ⟨"a", "h", "u", [], 0⟩)] := by
  decide

end Dot
